import Mathlib

/-!
Verification of the Moscow geocoder core (normalization, house-number
distance, street selection, scoring cascade, exact/fuzzy orchestration)
against its natural-language specification.  Python floats are embedded as
rationals (or reals where `exp` is involved), machine integers as `Int`/`Nat`,
strings as `String`/`List Char`.
-/

namespace Geocoder

/-- Parsed house number, mirroring `normalize.HouseNumberParsed`:
`base`, `corpus`, `building` are optional integers, `letter` an optional
single character; absence means "not specified". -/
structure HouseNumberParsed where
  base : Option Int := none
  corpus : Option Int := none
  building : Option Int := none
  letter : Option Char := none
deriving DecidableEq

/-- Both bases present and equal (the guard
`q.base is not None and c.base is not None and q.base == c.base`). -/
def basesEqual (q c : HouseNumberParsed) : Bool :=
  match q.base, c.base with
  | some a, some b => a == b
  | _, _ => false

/-- Mirror of `geocode_improved.house_number_distance`: the running sum of
the base, corpus, building and letter penalty blocks, in source order.
All contributions are integer-valued, so the distance is a natural number. -/
def house_number_distance (q c : HouseNumberParsed) : ℕ :=
  let dBase : ℕ :=
    match q.base, c.base with
    | some a, some b =>
        if (a - b).natAbs = 0 then 0
        else if (a - b).natAbs = 1 then 5
        else 10 + 5 * (a - b).natAbs
    | none, none => 0
    | _, _ => 200
  let dCorpus : ℕ :=
    match q.corpus, c.corpus with
    | some a, some b => 5 * (a - b).natAbs
    | some _, none => 30
    | none, some _ => 5
    | none, none => 0
  let dBuilding : ℕ :=
    match q.building, c.building with
    | some a, some b => 3 * (a - b).natAbs
    | some _, none => 20
    | none, some _ => if basesEqual q c then 3 else 8
    | none, none => 0
  let dLetter : ℕ :=
    match q.letter, c.letter with
    | some a, some b => if a ≠ b then 2 else 0
    | some _, none => 10
    | none, some _ => 1
    | none, none => 0
  dBase + dCorpus + dBuilding + dLetter

/-- Spec-side base penalty (spec table row "base"): 0 if both present and
equal, 5 if the absolute difference is 1, else 10+5·diff; 200 one-sided. -/
def basePenalty (q c : HouseNumberParsed) : ℕ :=
  match q.base, c.base with
  | some a, some b =>
      if a = b then 0
      else if (a - b).natAbs = 1 then 5
      else 10 + 5 * (a - b).natAbs
  | none, none => 0
  | _, _ => 200

/-- Spec-side corpus penalty: 5·diff both present; 30 query-only;
5 candidate-only. -/
def corpusPenalty (q c : HouseNumberParsed) : ℕ :=
  match q.corpus, c.corpus with
  | some a, some b => 5 * (a - b).natAbs
  | some _, none => 30
  | none, some _ => 5
  | none, none => 0

/-- Spec-side building penalty: 3·diff both present; 20 query-only;
candidate-only 3 if the bases are present and equal else 8. -/
def buildingPenalty (q c : HouseNumberParsed) : ℕ :=
  match q.building, c.building with
  | some a, some b => 3 * (a - b).natAbs
  | some _, none => 20
  | none, some _ => if basesEqual q c then 3 else 8
  | none, none => 0

/-- Spec-side letter penalty: 2 if both present and different, 0 if equal;
10 query-only; 1 candidate-only. -/
def letterPenalty (q c : HouseNumberParsed) : ℕ :=
  match q.letter, c.letter with
  | some a, some b => if a ≠ b then 2 else 0
  | some _, none => 10
  | none, some _ => 1
  | none, none => 0

/-- Number similarity score (`geocode_improved_fuzzy_only`, step 7):
1.0 when the distance is 0, otherwise `exp(-dist / 3.0)` with
`HOUSE_NUMBER_DISTANCE_BETA = 3.0`. -/
noncomputable def numberScore (d : ℕ) : ℝ :=
  if d = 0 then 1 else Real.exp (-(d : ℝ) / 3)

/-- Per-candidate adaptive weights (`geocode_improved_fuzzy_only`, step 8),
chosen by the street-similarity tier. -/
def adaptiveWeights {K : Type} [LinearOrderedField K] (ss : K) : K × K :=
  if ss ≥ 95 / 100 then (6 / 10, 4 / 10)
  else if ss ≥ 9 / 10 then (5 / 10, 5 / 10)
  else if ss ≥ 85 / 100 then (4 / 10, 6 / 10)
  else if ss ≥ 75 / 100 then (3 / 10, 7 / 10)
  else (2 / 10, 8 / 10)

/-- Mirror of the per-row score computation when the query has a house
number (`geocode_improved_fuzzy_only`, lines 500-561): weighted sum with
adaptive weights, then the bonus `if`/`elif` cascade of score floors. -/
def adaptiveScore {K : Type} [LinearOrderedField K]
    (q c : HouseNumberParsed) (ss ns : K) : K :=
  let w := adaptiveWeights ss
  let score := w.1 * ss + w.2 * ns
  if ss ≥ 95 / 100 ∧ basesEqual q c = true ∧ ns < 1 then
    if ss ≥ 99 / 100 then max score (95 / 100) else max score (ss * (9 / 10))
  else if ss ≥ 99 / 100 ∧ ns < 1 / 10 then max score (92 / 100)
  else if ss ≥ 95 / 100 ∧ ns < 1 / 10 then max score (ss * (8 / 10))
  else if ss ≥ 9 / 10 ∧ ns < 1 / 10 then max score (ss * (7 / 10))
  else score

/-- Final per-candidate score (`geocode_improved_fuzzy_only`, steps 8 and
the exact-match bonus): when the query has a house number, the adaptive
cascade followed by the ceiling (`street_sim >= 0.95` and
`number_score == 1.0` gives exactly 1.0); otherwise the fixed weighted sum
with `SCORE_STREET_WEIGHT = 0.25`, `SCORE_NUMBER_WEIGHT = 0.75`. -/
def finalScore {K : Type} [LinearOrderedField K]
    (q c : HouseNumberParsed) (ss ns : K) : K :=
  if q.base.isSome then
    if ss ≥ 95 / 100 ∧ ns = 1 then 1 else adaptiveScore q c ss ns
  else (25 / 100) * ss + (75 / 100) * ns

/-- One score-floor override of the spec: if the predicate holds, the
running score is raised to at least the floor (`score = max(score, floor)`),
otherwise left unchanged. -/
def floorStep {K : Type} [LinearOrderedField K]
    (P : Prop) [Decidable P] (s floor : K) : K :=
  if P then max s floor else s

/-- Spec-side score cascade, written from the claim's words: the weighted
sum with tier weights, then the four floor overrides applied in listed
order, each as `score = max(score, floor)`. -/
def floorCascade {K : Type} [LinearOrderedField K]
    (q c : HouseNumberParsed) (ss ns : K) : K :=
  let w :=
    if ss ≥ 95 / 100 then ((6 : K) / 10, (4 : K) / 10)
    else if ss ≥ 9 / 10 then (5 / 10, 5 / 10)
    else if ss ≥ 85 / 100 then (4 / 10, 6 / 10)
    else if ss ≥ 75 / 100 then (3 / 10, 7 / 10)
    else (2 / 10, 8 / 10)
  floorStep (ss ≥ 9 / 10 ∧ ns < 1 / 10)
    (floorStep (ss ≥ 95 / 100 ∧ ns < 1 / 10)
      (floorStep (ss ≥ 99 / 100 ∧ ns < 1 / 10)
        (floorStep (ss ≥ 95 / 100 ∧ basesEqual q c = true ∧ ns < 1)
          (w.1 * ss + w.2 * ns)
          (if ss ≥ 99 / 100 then 95 / 100 else ss * (9 / 10)))
        (92 / 100))
      (ss * (8 / 10)))
    (ss * (7 / 10))

/-- Street selection (`geocode_improved_fuzzy_only`, step 6) on the sorted
top-K fuzzy matches: one street when the best beats the runner-up by more
than 5 points (threshold `FUZZY_MATCH_MIN_SCORE * 100 = 60`), otherwise the
threshold-passing streets among the top two, empty when the best is below
the threshold. -/
def selectStreets (ms : List (String × ℚ)) : List String :=
  match ms with
  | [] => []
  | b :: rest =>
    match rest with
    | [] => if b.2 ≥ 60 then [b.1] else []
    | s :: _ =>
      if b.2 - s.2 > 5 ∧ b.2 ≥ 60 then [b.1]
      else if b.2 ≥ 60 then
        (((b :: rest).take 2).filter (fun p => p.2 ≥ 60)).map Prod.fst
      else []

/-- Street similarity rescaling: the raw fuzzy score in [0,100] divided
by 100 (`score / 100.0` in `street_scores_dict`). -/
def streetSim {K : Type} [LinearOrderedField K] (raw : K) : K := raw / 100


/-! ### Character and token utilities (shared by the normalizers) -/

/-- Uppercase-to-lowercase table for the character set the geocoder works
with (ASCII Latin plus Cyrillic), modelling Python `str.lower()` on the
relevant alphabet. -/
def lowerPairs : List (Char × Char) :=
  [('A', 'a'), ('B', 'b'), ('C', 'c'), ('D', 'd'), ('E', 'e'), ('F', 'f'), ('G', 'g'), ('H', 'h'), ('I', 'i'), ('J', 'j'), ('K', 'k'), ('L', 'l'), ('M', 'm'), ('N', 'n'), ('O', 'o'), ('P', 'p'), ('Q', 'q'), ('R', 'r'), ('S', 's'), ('T', 't'), ('U', 'u'), ('V', 'v'), ('W', 'w'), ('X', 'x'), ('Y', 'y'), ('Z', 'z'),
   ('А', 'а'), ('Б', 'б'), ('В', 'в'), ('Г', 'г'), ('Д', 'д'), ('Е', 'е'), ('Ж', 'ж'), ('З', 'з'), ('И', 'и'), ('Й', 'й'), ('К', 'к'), ('Л', 'л'), ('М', 'м'), ('Н', 'н'), ('О', 'о'), ('П', 'п'), ('Р', 'р'), ('С', 'с'), ('Т', 'т'), ('У', 'у'), ('Ф', 'ф'), ('Х', 'х'), ('Ц', 'ц'), ('Ч', 'ч'), ('Ш', 'ш'), ('Щ', 'щ'), ('Ъ', 'ъ'), ('Ы', 'ы'), ('Ь', 'ь'), ('Э', 'э'), ('Ю', 'ю'), ('Я', 'я'), ('Ё', 'ё')]

/-- Lowercase one character via the table. -/
def lowerChar (c : Char) : Char :=
  match lowerPairs.find? (fun p => p.1 == c) with
  | some p => p.2
  | none => c

/-- The Cyrillic-only capital pairs: the regex `[А-ЯЁ]` of `norm_number`
lowercases exactly these. -/
def cyrPairs : List (Char × Char) :=
  [('А', 'а'), ('Б', 'б'), ('В', 'в'), ('Г', 'г'), ('Д', 'д'), ('Е', 'е'), ('Ж', 'ж'), ('З', 'з'), ('И', 'и'), ('Й', 'й'), ('К', 'к'), ('Л', 'л'), ('М', 'м'), ('Н', 'н'), ('О', 'о'), ('П', 'п'), ('Р', 'р'), ('С', 'с'), ('Т', 'т'), ('У', 'у'), ('Ф', 'ф'), ('Х', 'х'), ('Ц', 'ц'), ('Ч', 'ч'), ('Ш', 'ш'), ('Щ', 'щ'), ('Ъ', 'ъ'), ('Ы', 'ы'), ('Ь', 'ь'), ('Э', 'э'), ('Ю', 'ю'), ('Я', 'я'), ('Ё', 'ё')]

/-- Lowercase one character the way `norm_number`'s final regex does:
only Cyrillic capitals are touched. -/
def cyrLower (c : Char) : Char :=
  match cyrPairs.find? (fun p => p.1 == c) with
  | some p => p.2
  | none => c

/-- Whitespace as matched by the regex class `\s`. -/
def isWsChar (c : Char) : Bool :=
  c == ' ' || c == '\t' || c == '\n' || c == '\r' || c == '\x0b' || c == '\x0c'

/-- The punctuation removed by `re.sub(r'[.,;]', '', s)`. -/
def isPunct (c : Char) : Bool := c == '.' || c == ',' || c == ';'

/-- Python `str.strip()`: drop whitespace from both ends. -/
def trimL (l : List Char) : List Char :=
  ((l.dropWhile isWsChar).reverse.dropWhile isWsChar).reverse

/-- Helper for `words`: accumulates the current word reversed in `acc`. -/
def wordsAux : List Char → List Char → List (List Char)
  | [], acc => if acc.isEmpty then [] else [acc.reverse]
  | c :: rest, acc =>
    if isWsChar c then
      if acc.isEmpty then wordsAux rest [] else acc.reverse :: wordsAux rest []
    else wordsAux rest (c :: acc)

/-- Python `str.split()` with no argument: split on whitespace runs,
dropping empty pieces. -/
def words (l : List Char) : List (List Char) := wordsAux l []

/-- Join tokens with single spaces (`' '.join(...)`). -/
def joinSp : List (List Char) → List Char
  | [] => []
  | [w] => w
  | w :: rest => w ++ ' ' :: joinSp rest

/-- `re.sub(r'\s+', ' ', s).strip()`: collapse whitespace runs to single
spaces and strip the ends — equivalently, re-join the words. -/
def collapseWs (l : List Char) : List Char := joinSp (words l)

/-- Substring test (Python `pat in s`). -/
def containsSub (pat l : List Char) : Bool :=
  l.tails.any (fun t => pat.isPrefixOf t)

/-! ### `normalize.norm_city` -/

/-- The two city-prefix rewrites of `norm_city`, applied after all dots
are already removed: `re.sub(r'^г\.?\s*', '', s)` (which strips a single
leading `г` and following whitespace, even from a longer word) and then
`re.sub(r'^город\s+', '', s)`. -/
def dropCityPrefix (l : List Char) : List Char :=
  let l2 :=
    match l with
    | 'г' :: rest => rest.dropWhile isWsChar
    | _ => l
  if l2.take 5 == "город".data &&
      (match l2.drop 5 with
       | c :: _ => isWsChar c
       | [] => false) then
    (l2.drop 5).dropWhile isWsChar
  else l2

/-- Mirror of `normalize.norm_city`: lower-case, remove `[.,;]`, strip the
city prefix, collapse whitespace; any string containing `moscow` or
`москва` collapses to `москва`. -/
def norm_city (s : String) : String :=
  if s.data.isEmpty then "" else
  let l1 := (trimL s.data).map lowerChar
  let l2 := l1.filter (fun c => !isPunct c)
  let l3 := dropCityPrefix l2
  let l4 := collapseWs l3
  if containsSub "moscow".data l4 then "москва"
  else if containsSub "москва".data l4 then "москва"
  else String.mk l4

/-! ### `normalize.norm_street` -/

/-- `normalize.STREET_TYPE_MAP` as an association list, in source order.
(The keys containing dots are unreachable because `norm_street` removes
all dots before tokenizing, but they are kept for fidelity.) -/
def streetTypePairs : List (List Char × List Char) :=
[  ("ул".data, "улица".data),
  ("ул.".data, "улица".data),
  ("улица".data, "улица".data),
  ("у".data, "улица".data),
  ("пр-т".data, "проспект".data),
  ("просп.".data, "проспект".data),
  ("просп".data, "проспект".data),
  ("проспект".data, "проспект".data),
  ("пр".data, "проспект".data),
  ("пр-д".data, "проезд".data),
  ("проезд".data, "проезд".data),
  ("пер".data, "переулок".data),
  ("пер.".data, "переулок".data),
  ("переулок".data, "переулок".data),
  ("бул".data, "бульвар".data),
  ("бул.".data, "бульвар".data),
  ("бульвар".data, "бульвар".data),
  ("ш".data, "шоссе".data),
  ("ш.".data, "шоссе".data),
  ("шос.".data, "шоссе".data),
  ("шоссе".data, "шоссе".data),
  ("наб".data, "набережная".data),
  ("наб.".data, "набережная".data),
  ("набережная".data, "набережная".data),
  ("пл".data, "площадь".data),
  ("пл.".data, "площадь".data),
  ("площадь".data, "площадь".data),
  ("ал".data, "аллея".data),
  ("ал.".data, "аллея".data),
  ("аллея".data, "аллея".data),
  ("туп".data, "тупик".data),
  ("туп.".data, "тупик".data),
  ("тупик".data, "тупик".data)]

/-- Dictionary lookup in `STREET_TYPE_MAP`. -/
def stLookup (t : List Char) : Option (List Char) :=
  (streetTypePairs.find? (fun p => p.1 == t)).map (fun p => p.2)

/-- `normalize.ADJECTIVE_MAP` as an association list, in source order. -/
def adjPairs : List (List Char × List Char) :=
[  ("б".data, "большая".data),
  ("б.".data, "большая".data),
  ("бол".data, "большая".data),
  ("больш".data, "большая".data),
  ("большая".data, "большая".data),
  ("большой".data, "большая".data),
  ("большое".data, "большая".data),
  ("м".data, "малая".data),
  ("м.".data, "малая".data),
  ("мал".data, "малая".data),
  ("малая".data, "малая".data),
  ("малый".data, "малая".data),
  ("малое".data, "малая".data),
  ("нов".data, "новая".data),
  ("нов.".data, "новая".data),
  ("новая".data, "новая".data),
  ("новый".data, "новая".data),
  ("новое".data, "новая".data),
  ("стар".data, "старая".data),
  ("ст.".data, "старая".data),
  ("старая".data, "старая".data),
  ("старый".data, "старая".data),
  ("старое".data, "старая".data)]

/-- Dictionary lookup in `ADJECTIVE_MAP`. -/
def adjLookup (t : List Char) : Option (List Char) :=
  (adjPairs.find? (fun p => p.1 == t)).map (fun p => p.2)

/-- Python `token.rstrip('.')`. -/
def rstripDot (t : List Char) : List Char :=
  (t.reverse.dropWhile (fun c => c == '.')).reverse

/-- The token-classification loop of `norm_street`: each token is either a
street type (last one wins), an adjective (last one wins), or a core-name
token (kept in order). -/
def classifyAux : List (List Char) → Option (List Char) → Option (List Char) →
    List (List Char) →
    Option (List Char) × Option (List Char) × List (List Char)
  | [], adj, ty, core => (adj, ty, core)
  | t :: rest, adj, ty, core =>
    match stLookup (rstripDot t) with
    | some full => classifyAux rest adj (some full) core
    | none =>
      match adjLookup t with
      | some a => classifyAux rest (some a) ty core
      | none => classifyAux rest adj ty (core ++ [t])

/-- The `result_parts` assembly of `norm_street`: `[adjective?] ++ core ++
[type]`, with the default type `улица` appended when no type token was
found but an adjective or core token exists. -/
def assembleStreet (adjF tyF : Option (List Char))
    (core : List (List Char)) : List (List Char) :=
  (match adjF with
   | some a => [a]
   | none => []) ++ core ++
  (match tyF with
   | some ty => [ty]
   | none => if adjF.isSome || !core.isEmpty then ["улица".data] else [])

/-- Mirror of `normalize.norm_street`: lower-case, remove `[.,;]`,
collapse whitespace, tokenize; map street-type and adjective tokens
through the tables; output `[adjective?] ++ core ++ [type]`, with the
default type `улица` appended when no type token was found but some other
token exists. -/
def norm_street (s : String) : String :=
  if s.data.isEmpty then "" else
  let l1 := collapseWs (((trimL s.data).map lowerChar).filter (fun c => !isPunct c))
  let tokens := words l1
  if tokens.isEmpty then "" else
  let acr := classifyAux tokens none none []
  let resultParts := assembleStreet acr.1 acr.2.1 acr.2.2
  if resultParts.isEmpty then String.mk l1 else String.mk (joinSp resultParts)

/-! ### `normalize.norm_number` and the marker rewrites -/

/-- One attempted match of the regex `(\d+)\s*MARKER\s*(\d+)` at the head
of `l` (markers are matched case-insensitively, as with `re.IGNORECASE`):
returns the two digit groups and the remainder after the match. -/
def tryMatch (marker l : List Char) : Option (List Char × List Char × List Char) :=
  let d1 := l.takeWhile Char.isDigit
  let r1 := l.dropWhile Char.isDigit
  if d1.isEmpty then none
  else
    let r2 := r1.dropWhile isWsChar
    if (r2.take marker.length).map lowerChar == marker then
      let r4 := (r2.drop marker.length).dropWhile isWsChar
      let d2 := r4.takeWhile Char.isDigit
      let r5 := r4.dropWhile Char.isDigit
      if d2.isEmpty then none else some (d1, d2, r5)
    else none

/-- Fuel-indexed scan of `re.sub(r'(\d+)\s*MARKER\s*(\d+)', r'\1MID\2', s)`:
leftmost matches, non-overlapping, continuing after each replacement.
`mid` is the replacement text between the two digit groups. The fuel is an
upper bound on the number of scan steps; each step consumes at least one
character, so `l.length + 1` is always enough. -/
def subNMNF (marker mid : List Char) : ℕ → List Char → List Char
  | 0, l => l
  | _, [] => []
  | fuel + 1, c :: rest =>
    match tryMatch marker (c :: rest) with
    | some (d1, d2, r5) => d1 ++ mid ++ d2 ++ subNMNF marker mid fuel r5
    | none => c :: subNMNF marker mid fuel rest

/-- The marker rewrite with adequate fuel. -/
def subNMN (marker mid l : List Char) : List Char :=
  subNMNF marker mid (l.length + 1) l

/-- Mirror of `normalize.norm_number`: strip, remove dots, rewrite the
corpus variants (`к`, `корп`, `корпус`) to `\1 к\2`, the building variants
(`с`, `стр`, `строение`) to `\1 с\2`, the fraction `\1/\2` to `\1 к\2`,
lower-case Cyrillic capitals, collapse whitespace.  (The `\.?` in the
`корп`/`стр` patterns is irrelevant because all dots are already removed.) -/
def norm_number (s : String) : String :=
  if s.data.isEmpty then "" else
  let l1 := (trimL s.data).filter (fun c => !(c == '.'))
  let l2 := subNMN "к".data " к".data l1
  let l3 := subNMN "корп".data " к".data l2
  let l4 := subNMN "корпус".data " к".data l3
  let l5 := subNMN "с".data " с".data l4
  let l6 := subNMN "стр".data " с".data l5
  let l7 := subNMN "строение".data " с".data l6
  let l8 := subNMN "/".data " к".data l7
  String.mk (collapseWs (l8.map cyrLower))

/-- Mirror of `normalize.format_number_for_display`: expand the short
`к`/`с` tokens to `корпус`/`строение` for presentation. -/
def format_number_for_display (s : String) : String :=
  if s.data.isEmpty then "" else
  let r1 := subNMN "к".data " корпус ".data s.data
  let r2 := subNMN "с".data " строение ".data r1
  String.mk (collapseWs r2)


/-- The seven marker/slash rewrite passes of `norm_number` all leave the
string unchanged. -/
def numberRewritesFixed (l : List Char) : Prop :=
  subNMN "к".data " к".data l = l ∧
  subNMN "корп".data " к".data l = l ∧
  subNMN "корпус".data " к".data l = l ∧
  subNMN "с".data " с".data l = l ∧
  subNMN "стр".data " с".data l = l ∧
  subNMN "строение".data " с".data l = l ∧
  subNMN "/".data " к".data l = l

instance (l : List Char) : Decidable (numberRewritesFixed l) := by
  unfold numberRewritesFixed
  infer_instance



/-- The seven-pass rewrite core of `norm_number` before Cyrillic lowering
and whitespace collapsing. -/
def normNumberCore (s : String) : List Char :=
  subNMN "/".data " к".data (subNMN "строение".data " с".data
    (subNMN "стр".data " с".data (subNMN "с".data " с".data
      (subNMN "корпус".data " к".data (subNMN "корп".data " к".data
        (subNMN "к".data " к".data
          ((trimL s.data).filter (fun c => !(c == '.')))))))))


/-! ### `normalize.build_full_norm` and display helpers -/

/-- Inverse lookup for `lowerPairs`, used by `capitalizeL`. -/
def upperChar (c : Char) : Char :=
  match lowerPairs.find? (fun p => p.2 == c) with
  | some p => p.1
  | none => c

/-- Python `str.capitalize()`: first character upper-cased, the rest
lower-cased. -/
def capitalizeL (l : List Char) : List Char :=
  match l with
  | [] => []
  | c :: rest => upperChar c :: rest.map lowerChar

/-- The street-type words printed lower-case in display mode. -/
def streetTypesLower : List (List Char) :=
  ["улица".data, "проспект".data, "проезд".data, "переулок".data,
   "бульвар".data, "шоссе".data, "набережная".data, "площадь".data,
   "аллея".data, "тупик".data]

/-- Mirror of `normalize.build_full_norm`: internal mode space-joins the
normalized parts; display mode comma-joins with capitalization and the
number expanded via `format_number_for_display`. -/
def build_full_norm (city street number : String) (forDisplay : Bool) : String :=
  let cityParts : List (List Char) :=
    if city.data.isEmpty then []
    else if forDisplay then [capitalizeL city.data] else [city.data]
  let streetParts : List (List Char) :=
    if street.data.isEmpty then []
    else if forDisplay then
      [joinSp ((words street.data).map (fun w =>
        if streetTypesLower.contains (w.map lowerChar) then w.map lowerChar
        else capitalizeL w))]
    else [street.data]
  let numberParts : List (List Char) :=
    if number.data.isEmpty then []
    else if forDisplay then [(format_number_for_display number).data]
    else [number.data]
  let parts := cityParts ++ streetParts ++ numberParts
  if forDisplay then
    match parts with
    | [] => ""
    | [p0] => String.mk p0
    | p0 :: p1 :: rest =>
      match rest with
      | [] => String.mk (p0 ++ ", ".data ++ p1)
      | p2 :: _ => String.mk (p0 ++ ", ".data ++ p1 ++ ", ".data ++ p2)
  else String.mk (joinSp parts)



/-- Helper for `splitComma`. -/
def splitCommaAux : List Char → List Char → List (List Char)
  | [], acc => [acc.reverse]
  | c :: rest, acc =>
    if c == ',' then acc.reverse :: splitCommaAux rest []
    else splitCommaAux rest (c :: acc)

/-- Python `s.split(',')`: the comma-separated pieces (one empty piece
for the empty string). -/
def splitComma (l : List Char) : List (List Char) := splitCommaAux l []

/-! ### `geocode_improved.parse_address` -/

/-- The marker-word list of the backward scan (`['с','к','корп','стр',
'корпус','строение','литер','лит']`). -/
def scanMarkerWords : List (List Char) :=
  ["с".data, "к".data, "корп".data, "стр".data, "корпус".data,
   "строение".data, "литер".data, "лит".data]

/-- `re.search(r'\d', token)`: the token contains a digit. -/
def containsDigitL (l : List Char) : Bool := l.any Char.isDigit

/-- `re.match(r'^[а-яёa-z]$', token_lower)`: a single lowercase Cyrillic
or Latin letter. -/
def isSingleLetterTok (l : List Char) : Bool :=
  match l with
  | [c] => ('а' ≤ c && c ≤ 'я') || c == 'ё' || ('a' ≤ c && c ≤ 'z')
  | _ => false

/-- Mirror of the backward token scan of `parse_address` (lines 137-168):
`revToks` is the token list reversed (the loop walks indices downward),
`i` the current original index, `fd` whether a digit token has been seen,
`nts` the collected number tokens (in original order), `idx` the index of
the last digit-containing token consumed.  A digit token is collected and
updates `idx`; after a digit has been seen, a token whose lowercase form
has length at most 4 is collected exactly when it is a marker word, and
any other token stops the scan; before any digit, tokens are skipped.
(The single-letter branch of the source is unreachable: a length-1 token
is already handled by the length-at-most-4 branch.) -/
def scanRev : List (List Char) → ℕ → Bool → List (List Char) →
    Option ℕ → Option ℕ × List (List Char)
  | [], _, _, nts, idx => (idx, nts)
  | t :: rest, i, fd, nts, idx =>
    if nts.length ≥ 4 then (idx, nts)
    else
      let tl := t.map lowerChar
      if containsDigitL t then scanRev rest (i - 1) true (t :: nts) (some i)
      else if fd && tl.length ≤ 4 then
        if scanMarkerWords.contains tl then scanRev rest (i - 1) fd (t :: nts) idx
        else (idx, nts)
      else if fd && tl.length == 1 && isSingleLetterTok tl then
        scanRev rest (i - 1) fd (t :: nts) idx
      else if fd then (idx, nts)
      else scanRev rest (i - 1) fd nts idx

/-- The backward scan started from the last token. -/
def scanNumberTail (toks : List (List Char)) : Option ℕ × List (List Char) :=
  scanRev toks.reverse (toks.length - 1) false [] none

/-- Mirror of `geocode_improved.parse_address`: split on commas and strip;
the first segment is the city when its lowercase form contains `моск`;
the street/number source is split by the backward scan into raw street
(tokens before the last-consumed digit token) and raw number (the
collected tokens); a further comma segment is appended to (or becomes)
the raw number. -/
def parse_address (query : String) : String × String × String :=
  let parts := (splitComma query.data).map (fun p => String.mk (trimL p))
  let cityRem : String × List String :=
    match parts with
    | [] => ("", [])
    | p0 :: rest =>
      if containsSub "моск".data (p0.data.map lowerChar) then (p0, rest)
      else ("", p0 :: rest)
  match cityRem.2 with
  | [] => (cityRem.1, "", "")
  | streetPart :: rest2 =>
    let toks := words streetPart.data
    let scanned := scanNumberTail toks
    let streetNum : String × String :=
      match scanned.1 with
      | some idx =>
        (String.mk (joinSp (toks.take idx)), String.mk (joinSp scanned.2))
      | none => (streetPart, "")
    let numberRaw :=
      match rest2 with
      | [] => streetNum.2
      | second :: _ =>
        if streetNum.2.data.isEmpty then second
        else String.mk (streetNum.2.data ++ ' ' :: second.data)
    (cityRem.1, streetNum.1, numberRaw)


/-- Spec-side qualification for the number-tail scan, per the amended
claim: a token qualifies if it contains a digit or (once a digit has been
seen) if its lowercase form has length at most 4 and is one of the marker
words — bare single letters do not qualify. -/
def qualifiesTok (t : List Char) : Bool :=
  containsDigitL t ||
    ((t.map lowerChar).length ≤ 4 && scanMarkerWords.contains (t.map lowerChar))

/-- The greatest index of a digit-containing token in a token list. -/
def lastDigitIdxOpt : List (List Char) → Option ℕ
  | [] => none
  | t :: rest =>
    match lastDigitIdxOpt rest with
    | some p => some (p + 1)
    | none => if containsDigitL t then some 0 else none

/-- Spec-side two-phase description of the backward scan: walk the
reversed token list skipping (and discarding) non-digit tokens, then from
the first digit token collect the maximal qualifying run capped at 4
tokens; the reported index is that of the last-consumed digit token. -/
def specScanStreetNumber (toks : List (List Char)) :
    Option ℕ × List (List Char) :=
  let rev := toks.reverse
  let k := (rev.takeWhile (fun t => !containsDigitL t)).length
  match rev.dropWhile (fun t => !containsDigitL t) with
  | [] => (none, [])
  | d :: rest2 =>
    let collectedRev := d :: (rest2.takeWhile qualifiesTok).take 3
    let p := (lastDigitIdxOpt collectedRev).getD 0
    (some (toks.length - 1 - k - p), collectedRev.reverse)

/-- Spec-side `parse_address`, per the amended claim: the same comma and
city handling, with the backward scan replaced by its two-phase
description. -/
def parse_address_spec (query : String) : String × String × String :=
  let parts := (splitComma query.data).map (fun p => String.mk (trimL p))
  let cityRem : String × List String :=
    match parts with
    | [] => ("", [])
    | p0 :: rest =>
      if containsSub "моск".data (p0.data.map lowerChar) then (p0, rest)
      else ("", p0 :: rest)
  match cityRem.2 with
  | [] => (cityRem.1, "", "")
  | streetPart :: rest2 =>
    let toks := words streetPart.data
    let scanned := specScanStreetNumber toks
    let streetNum : String × String :=
      match scanned.1 with
      | some idx =>
        (String.mk (joinSp (toks.take idx)), String.mk (joinSp scanned.2))
      | none => (streetPart, "")
    let numberRaw :=
      match rest2 with
      | [] => streetNum.2
      | second :: _ =>
        if streetNum.2.data.isEmpty then second
        else String.mk (streetNum.2.data ++ ' ' :: second.data)
    (cityRem.1, streetNum.1, numberRaw)

/-! ### The exact-stage geocoder and the orchestrator -/

/-- A reference-table row: raw fields, coordinates, and the normalized
columns added by `add_normalized_columns`. -/
structure AddressRecord where
  city : String
  street : String
  housenumber : String
  lon : ℚ
  lat : ℚ
  city_norm : String
  street_norm : String
  number_norm : String
deriving DecidableEq

/-- One result object of the response (`objects` entries). -/
structure GeoObject where
  locality : String
  street : String
  number : String
  normalized_address : String
  lon : ℚ
  lat : ℚ
  score : ℚ
deriving DecidableEq

/-- A geocoder response. -/
structure GeocodeResult where
  searched_address : String
  objects : List GeoObject
deriving DecidableEq

/-- The response-object construction shared by `geocode_basic` (lines
151-178) and the improved geocoder: raw fields are copied, the
normalized display address is built from the re-normalized row fields
(empty when the street normalizes to empty). -/
def mkObject (r : AddressRecord) (score : ℚ) : GeoObject :=
  let cityVal := r.city
  let streetVal := r.street
  let numberVal := r.housenumber
  let cityNormVal := if cityVal.data.isEmpty then "москва" else norm_city cityVal
  let streetNormVal := if streetVal.data.isEmpty then "" else norm_street streetVal
  let numberNormVal := if numberVal.data.isEmpty then "" else norm_number numberVal
  let normalizedAddress :=
    if streetNormVal.data.isEmpty then ""
    else build_full_norm cityNormVal streetNormVal numberNormVal true
  { locality := cityVal, street := streetVal, number := numberVal,
    normalized_address := normalizedAddress, lon := r.lon, lat := r.lat,
    score := score }

/-- The three comma-separated raw components used by `geocode_basic`. -/
def basicComponents (query : String) : String × String × String :=
  let parts := (splitComma query.data).map (fun p => String.mk (trimL p))
  (parts.getD 0 "", parts.getD 1 "", parts.getD 2 "")

/-- The exact-match filter of `geocode_basic`: equality on every
normalized column the query specified; an empty normalized query field
constrains nothing. -/
def basicMatches (query : String) (r : AddressRecord) : Bool :=
  let comps := basicComponents query
  let cityNorm := norm_city comps.1
  let streetNorm := norm_street comps.2.1
  let numberNorm := norm_number comps.2.2
  (cityNorm.data.isEmpty || r.city_norm == cityNorm) &&
  (streetNorm.data.isEmpty || r.street_norm == streetNorm) &&
  (numberNorm.data.isEmpty || r.number_norm == numberNorm)

/-- Mirror of `geocode_basic.geocode_basic` over an in-memory reference
table (the CSV/pandas path, the default with `USE_DATABASE` unset):
parse the comma components, normalize, filter by normalized-column
equality, take the first `limit` rows, format with score fixed at 1.0. -/
def geocode_basic (query : String) (limit : ℕ) (df : List AddressRecord) :
    GeocodeResult :=
  { searched_address := query,
    objects := ((df.filter (basicMatches query)).take limit).map
      (fun r => mkObject r 1) }

/-- Mirror of `geocode_improved.geocode_improved`, with the fuzzy-only
pipeline abstracted as a parameter: in debug mode the fuzzy pipeline
always runs; otherwise the baseline runs first and its result is returned
whenever it found any object, the fuzzy pipeline running only on an empty
baseline result. -/
def geocode_improved (fuzzyOnly : String → ℕ → Bool → GeocodeResult)
    (query : String) (limit : ℕ) (debug : Bool) (df : List AddressRecord) :
    GeocodeResult :=
  if debug then fuzzyOnly query limit true
  else
    let resBasic := geocode_basic query limit df
    if !resBasic.objects.isEmpty then resBasic
    else fuzzyOnly query limit false

/-- The city filter at the start of `geocode_improved_fuzzy_only`
(steps 2 and 5): the normalized query city defaults to `москва` when the
query has no city part; a nonempty normalized city restricts the table to
rows with that `city_norm`, an empty one leaves the table whole. -/
def fuzzyCityPool (query : String) (df : List AddressRecord) :
    List AddressRecord :=
  let cityRaw := (parse_address query).1
  let qCityNorm := if cityRaw.data.isEmpty then "москва" else norm_city cityRaw
  if qCityNorm.data.isEmpty then df
  else df.filter (fun r => r.city_norm == qCityNorm)


/-- Spec-side exact-match predicate: equality on every normalized field
the query specified; unspecified (empty) fields act as wildcards. -/
def exactWildcardMatch (query : String) (r : AddressRecord) : Prop :=
  (norm_city (basicComponents query).1 = "" ∨
    r.city_norm = norm_city (basicComponents query).1) ∧
  (norm_street (basicComponents query).2.1 = "" ∨
    r.street_norm = norm_street (basicComponents query).2.1) ∧
  (norm_number (basicComponents query).2.2 = "" ∨
    r.number_norm = norm_number (basicComponents query).2.2)


/-- A well-formed output token of the normalizers: nonempty, free of
whitespace and punctuation, and fixed by lower-casing. -/
def GoodTok (w : List Char) : Prop :=
  w ≠ [] ∧ ∀ c ∈ w, isWsChar c = false ∧ isPunct c = false ∧ lowerChar c = c

instance (w : List Char) : Decidable (GoodTok w) := by
  unfold GoodTok
  infer_instance


/-- Helper: the canonical token-list shape of a `norm_street` output. -/
def streetShape (adj : Option (List Char)) (core : List (List Char))
    (ty : List Char) : List (List Char) :=
  (match adj with | some a => [a] | none => []) ++ core ++ [ty]


/-- Helper: the adaptive weights are nonnegative and sum to one. -/
theorem adaptiveWeights_props {K : Type} [LinearOrderedField K] (ss : K) :
    0 ≤ (adaptiveWeights ss).1 ∧ 0 ≤ (adaptiveWeights ss).2 ∧
      (adaptiveWeights ss).1 + (adaptiveWeights ss).2 = 1 := by
  simp only [adaptiveWeights]
  split_ifs <;> norm_num

/-- Helper: bounds for the adaptive score given bounded inputs. -/
theorem adaptiveScore_bounds {K : Type} [LinearOrderedField K]
    (q c : HouseNumberParsed) (ss ns : K)
    (hss0 : 0 ≤ ss) (hss1 : ss ≤ 1) (hns0 : 0 ≤ ns) (hns1 : ns ≤ 1) :
    0 ≤ adaptiveScore q c ss ns ∧ adaptiveScore q c ss ns ≤ 1 := by
  obtain ⟨hw1, hw2, hsum⟩ := adaptiveWeights_props ss
  have hs0l : 0 ≤ (adaptiveWeights ss).1 * ss + (adaptiveWeights ss).2 * ns :=
    add_nonneg (mul_nonneg hw1 hss0) (mul_nonneg hw2 hns0)
  have hs0u : (adaptiveWeights ss).1 * ss + (adaptiveWeights ss).2 * ns ≤ 1 := by
    nlinarith [mul_le_mul_of_nonneg_left hss1 hw1,
      mul_le_mul_of_nonneg_left hns1 hw2]
  simp only [adaptiveScore]
  split_ifs <;> constructor <;>
    first
      | exact hs0l
      | exact hs0u
      | exact le_trans hs0l (le_max_left _ _)
      | exact max_le hs0u (by nlinarith)

/-- Helper: bounds for the final score given bounded inputs. -/
theorem finalScore_bounds {K : Type} [LinearOrderedField K]
    (q c : HouseNumberParsed) (ss ns : K)
    (hss0 : 0 ≤ ss) (hss1 : ss ≤ 1) (hns0 : 0 ≤ ns) (hns1 : ns ≤ 1) :
    0 ≤ finalScore q c ss ns ∧ finalScore q c ss ns ≤ 1 := by
  have h := adaptiveScore_bounds q c ss ns hss0 hss1 hns0 hns1
  simp only [finalScore]
  split_ifs <;> constructor <;> first
    | exact h.1 | exact h.2 | linarith | norm_num

/-- Helper: a floor step applied when the predicate holds. -/
theorem floorStep_pos {K : Type} [LinearOrderedField K]
    {P : Prop} [Decidable P] (h : P) (s floor : K) :
    floorStep P s floor = max s floor := if_pos h

/-- Helper: a floor step applied when the predicate fails. -/
theorem floorStep_neg {K : Type} [LinearOrderedField K]
    (P : Prop) [Decidable P] (h : ¬P) (s floor : K) :
    floorStep P s floor = s := if_neg h

/-- Helper: a floor step never lowers the running score. -/
theorem floorStep_ge {K : Type} [LinearOrderedField K]
    (P : Prop) [Decidable P] (s floor : K) : s ≤ floorStep P s floor := by
  unfold floorStep
  split_ifs
  · exact le_max_left _ _
  · exact le_rfl

/-- Helper: a floor step on a score already raised to a larger floor is
absorbed. -/
theorem floorStep_absorb {K : Type} [LinearOrderedField K]
    (P : Prop) [Decidable P] (x : K) {a b : K} (h : b ≤ a) :
    floorStep P (max x a) b = max x a := by
  unfold floorStep
  split_ifs
  · rw [max_assoc, max_eq_left h]
  · rfl

/-- Claim C1: with a house number in the query, the pre-ceiling score the
code computes through its `if`/`elif` bonus chain equals the spec's
weighted sum followed by the four score floors applied in listed order as
`score = max(score, floor)`, and the floors only ever raise the score. -/
theorem scoring_cascade_correct {K : Type} [LinearOrderedField K]
    (q c : HouseNumberParsed) (ss ns : K)
    (hss0 : 0 ≤ ss) (hss1 : ss ≤ 1) (hq : q.base.isSome = true) :
    adaptiveScore q c ss ns = floorCascade q c ss ns ∧
    (adaptiveWeights ss).1 * ss + (adaptiveWeights ss).2 * ns ≤
      floorCascade q c ss ns := by
  constructor
  · simp only [adaptiveScore, floorCascade, adaptiveWeights]
    by_cases h1 : ss ≥ 95 / 100 ∧ basesEqual q c = true ∧ ns < 1
    · rw [if_pos h1, floorStep_pos h1]
      by_cases h9 : ss ≥ 99 / 100
      · rw [if_pos h9, if_pos h9,
          floorStep_absorb _ _ (by norm_num : (92 : K)/100 ≤ 95/100),
          floorStep_absorb _ _ (by linarith : ss * (8/10) ≤ (95 : K)/100),
          floorStep_absorb _ _ (by linarith : ss * (7/10) ≤ (95 : K)/100)]
      · rw [if_neg h9, if_neg h9,
          floorStep_neg (ss ≥ 99 / 100 ∧ ns < 1 / 10) (fun h => h9 h.1),
          floorStep_absorb _ _ (by linarith : ss * (8/10) ≤ ss * (9/10)),
          floorStep_absorb _ _ (by linarith : ss * (7/10) ≤ ss * (9/10))]
    · rw [if_neg h1, floorStep_neg _ h1]
      by_cases h2 : ss ≥ 99 / 100 ∧ ns < 1 / 10
      · rw [if_pos h2, floorStep_pos h2,
          floorStep_absorb _ _ (by linarith : ss * (8/10) ≤ (92 : K)/100),
          floorStep_absorb _ _ (by linarith : ss * (7/10) ≤ (92 : K)/100)]
      · rw [if_neg h2, floorStep_neg _ h2]
        by_cases h3 : ss ≥ 95 / 100 ∧ ns < 1 / 10
        · rw [if_pos h3, floorStep_pos h3,
            floorStep_absorb _ _ (by linarith : ss * (7/10) ≤ ss * (8/10))]
        · rw [if_neg h3, floorStep_neg _ h3]
          by_cases h4 : ss ≥ 9 / 10 ∧ ns < 1 / 10
          · rw [if_pos h4, floorStep_pos h4]
          · rw [if_neg h4, floorStep_neg _ h4]
  · simp only [floorCascade, adaptiveWeights]
    exact le_trans (le_trans (le_trans (floorStep_ge _ _ _)
      (floorStep_ge _ _ _)) (floorStep_ge _ _ _)) (floorStep_ge _ _ _)

/-- Witness for `scoring_cascade_correct` at a concrete input. -/
theorem scoring_cascade_correct_witness :
    (0 ≤ (1 : ℚ)/2 ∧ (1 : ℚ)/2 ≤ 1 ∧
      (HouseNumberParsed.mk (some 12) none none none).base.isSome = true) ∧
    (adaptiveScore (HouseNumberParsed.mk (some 12) none none none)
        (HouseNumberParsed.mk (some 14) none none none) ((1 : ℚ)/2) (1/3) =
      floorCascade (HouseNumberParsed.mk (some 12) none none none)
        (HouseNumberParsed.mk (some 14) none none none) ((1 : ℚ)/2) (1/3)) :=
  ⟨⟨by norm_num, by norm_num, rfl⟩,
    (scoring_cascade_correct (HouseNumberParsed.mk (some 12) none none none)
      (HouseNumberParsed.mk (some 14) none none none) ((1 : ℚ)/2) (1/3)
      (by norm_num) (by norm_num) rfl).1⟩

/-- Helper: the exponential-decay number score is in (0, 1]. -/
theorem numberScore_bounds (d : ℕ) :
    0 < numberScore d ∧ numberScore d ≤ 1 := by
  constructor
  · simp only [numberScore]
    split_ifs
    · norm_num
    · exact Real.exp_pos _
  · simp only [numberScore]
    split_ifs
    · norm_num
    · calc Real.exp (-(d : ℝ) / 3) ≤ Real.exp 0 := by
            apply Real.exp_le_exp.mpr
            have : (0 : ℝ) ≤ (d : ℝ) := Nat.cast_nonneg d
            linarith
        _ = 1 := Real.exp_zero

/-- Claim C2: the house-number distance is the sum of the four independent
per-field penalties of the spec table, and the similarity score is 1 at
distance 0, `exp(-d/3)` at positive distance, always in (0, 1]. -/
theorem distance_decomposition_and_score_range :
    (∀ q c : HouseNumberParsed,
      house_number_distance q c =
        basePenalty q c + corpusPenalty q c + buildingPenalty q c +
          letterPenalty q c) ∧
    numberScore 0 = 1 ∧
    (∀ d : ℕ, numberScore (d + 1) = Real.exp (-((d : ℝ) + 1) / 3)) ∧
    (∀ d : ℕ, 0 < numberScore d ∧ numberScore d ≤ 1) := by
  refine ⟨?_, ?_, ?_, ?_⟩
  · intro q c
    obtain ⟨qb, qc2, qbu, ql⟩ := q
    obtain ⟨cb, cc, cbu, cl⟩ := c
    cases qb <;> cases cb <;>
      simp [house_number_distance, basePenalty, corpusPenalty,
        buildingPenalty, letterPenalty, Int.natAbs_eq_zero, sub_eq_zero]
  · simp [numberScore]
  · intro d
    simp [numberScore, Nat.cast_add]
  · exact numberScore_bounds

/-- Claim C4 counterexample: a candidate with `street_sim = 0.96 ≥ 0.95`
and `number_score = 1.0`, but a query without a house number: the final
score is `0.25*0.96 + 0.75*1 = 0.99`, not 1.0 — the ceiling rule is
inside the `if has_number_in_query` branch. -/
theorem ceiling_rule_cex :
    ((96 : ℚ)/100 ≥ 95/100 ∧
      finalScore (HouseNumberParsed.mk none none none none)
        (HouseNumberParsed.mk none none none none) ((96 : ℚ)/100) 1 = 99/100) ∧
    (99 : ℚ)/100 ≠ 1 := by
  refine ⟨⟨by norm_num, ?_⟩, by norm_num⟩
  norm_num [finalScore]

/-- Claim C4 (amended): the 1.0 ceiling for candidates with
`street_sim ≥ 0.95` and `number_score == 1.0` applies exactly when the
query contains a house number. -/
theorem ceiling_rule {K : Type} [LinearOrderedField K]
    (q c : HouseNumberParsed) (ss ns : K)
    (hq : q.base.isSome = true) (hss : ss ≥ 95/100) (hns : ns = 1) :
    finalScore q c ss ns = 1 := by
  simp only [finalScore, hq, if_true]
  rw [if_pos ⟨hss, hns⟩]

/-- Witness for `ceiling_rule` at a concrete input. -/
theorem ceiling_rule_witness :
    ((HouseNumberParsed.mk (some 7) none none none).base.isSome = true ∧
      (97 : ℚ)/100 ≥ 95/100 ∧ (1 : ℚ) = 1) ∧
    finalScore (HouseNumberParsed.mk (some 7) none none none)
      (HouseNumberParsed.mk (some 7) none none none) ((97 : ℚ)/100) 1 = 1 :=
  ⟨⟨rfl, by norm_num, rfl⟩,
    ceiling_rule (HouseNumberParsed.mk (some 7) none none none)
      (HouseNumberParsed.mk (some 7) none none none) ((97 : ℚ)/100) 1 rfl
      (by norm_num) rfl⟩

/-- Claim C5: on a threshold of 60 over the descending-sorted candidate
list, street selection returns nothing when no candidate reaches the
threshold, exactly the best street when it is the only one over the
threshold or beats the runner-up by more than 5, and exactly the top two
otherwise. -/
theorem street_selection_trichotomy (ms : List (String × ℚ))
    (hsorted : ms.Chain' (fun a b => b.2 ≤ a.2)) :
    ((∀ p ∈ ms, p.2 < 60) → selectStreets ms = []) ∧
    (∀ b, ms = [b] → 60 ≤ b.2 → selectStreets ms = [b.1]) ∧
    (∀ b s rest, ms = b :: s :: rest → 60 ≤ b.2 → s.2 < 60 →
      selectStreets ms = [b.1]) ∧
    (∀ b s rest, ms = b :: s :: rest → 60 ≤ b.2 → 5 < b.2 - s.2 →
      selectStreets ms = [b.1]) ∧
    (∀ b s rest, ms = b :: s :: rest → 60 ≤ b.2 → 60 ≤ s.2 →
      b.2 - s.2 ≤ 5 → selectStreets ms = [b.1, s.1]) := by
  refine ⟨?_, ?_, ?_, ?_, ?_⟩
  · intro hall
    match ms, hall with
    | [], _ => rfl
    | [b], hall =>
      have hb := hall b (by simp)
      simp only [selectStreets]
      rw [if_neg (not_le.mpr hb)]
    | b :: s :: rest, hall =>
      have hb := hall b (by simp)
      simp only [selectStreets]
      rw [if_neg (by rintro ⟨-, h⟩; linarith), if_neg (by intro h; linarith)]
  · rintro b rfl hb
    simp [selectStreets, hb]
  · rintro b s rest rfl hb hs
    simp only [selectStreets]
    rcases le_or_lt (b.2 - s.2) 5 with hgap | hgap
    · rw [if_neg (by rintro ⟨h, -⟩; linarith), if_pos hb]
      simp [List.filter, hb, not_le.mpr hs]
    · rw [if_pos ⟨hgap, hb⟩]
  · rintro b s rest rfl hb hgap
    simp only [selectStreets]
    rw [if_pos ⟨hgap, hb⟩]
  · rintro b s rest rfl hb hs hgap
    simp only [selectStreets]
    rw [if_neg (by rintro ⟨h, -⟩; linarith), if_pos hb]
    simp [List.filter, hb, hs]

/-- Witness for `street_selection_trichotomy` at a concrete input. -/
theorem street_selection_trichotomy_witness :
    ([(("ленина", 90) : String × ℚ), ("ленинский", 88)].Chain'
      (fun a b => b.2 ≤ a.2)) ∧
    selectStreets [(("ленина", 90) : String × ℚ), ("ленинский", 88)] =
      ["ленина", "ленинский"] :=
  ⟨by norm_num, by
    refine (street_selection_trichotomy _ (by norm_num)).2.2.2.2
      ("ленина", 90) ("ленинский", 88) [] rfl (by norm_num) (by norm_num)
      (by norm_num)⟩

/-- Claim C9: the rescaled street similarity lies in [0,1] when the raw
fuzzy score lies in [0,100], the number score lies in (0,1], and the final
score — after the weighted sum, the floors and the ceiling — lies in
[0,1]. -/
theorem match_candidate_invariants (q c : HouseNumberParsed) (d : ℕ)
    (raw : ℝ) (h0 : 0 ≤ raw) (h100 : raw ≤ 100) :
    (0 ≤ streetSim raw ∧ streetSim raw ≤ 1) ∧
    (0 < numberScore d ∧ numberScore d ≤ 1) ∧
    (0 ≤ finalScore q c (streetSim raw) (numberScore d) ∧
      finalScore q c (streetSim raw) (numberScore d) ≤ 1) := by
  have hns := numberScore_bounds d
  have hss : 0 ≤ streetSim raw ∧ streetSim raw ≤ 1 := by
    constructor <;> simp only [streetSim] <;> linarith
  exact ⟨hss, hns,
    finalScore_bounds q c _ _ hss.1 hss.2 (le_of_lt hns.1) hns.2⟩

/-- Witness for `match_candidate_invariants` at a concrete input. -/
theorem match_candidate_invariants_witness :
    ((0 : ℝ) ≤ 50 ∧ (50 : ℝ) ≤ 100) ∧
    (0 ≤ finalScore (HouseNumberParsed.mk (some 3) none none none)
        (HouseNumberParsed.mk (some 3) none none none)
        (streetSim (50 : ℝ)) (numberScore 4) ∧
      finalScore (HouseNumberParsed.mk (some 3) none none none)
        (HouseNumberParsed.mk (some 3) none none none)
        (streetSim (50 : ℝ)) (numberScore 4) ≤ 1) :=
  ⟨⟨by norm_num, by norm_num⟩,
    (match_candidate_invariants _ _ 4 50 (by norm_num) (by norm_num)).2.2⟩


/-- Helper: a string whose character list is empty is the empty string. -/
theorem string_data_empty {s : String} (h : s.data = []) : s = "" := by
  apply String.ext
  rw [h]

/-- Helper: emptiness of the character list is emptiness of the string. -/
theorem string_isEmpty_iff (s : String) : s.data.isEmpty = true ↔ s = "" := by
  rw [List.isEmpty_iff]
  exact ⟨string_data_empty, fun h => by rw [h]⟩

/-- Helper: the code's Boolean exact filter coincides with the spec's
wildcard predicate. -/
theorem basicMatches_iff (query : String) (r : AddressRecord) :
    basicMatches query r = true ↔ exactWildcardMatch query r := by
  simp only [basicMatches, exactWildcardMatch, Bool.and_eq_true,
    Bool.or_eq_true, string_isEmpty_iff, beq_iff_eq]
  exact and_assoc

/-- Claim C3: when the query's specified normalized fields exactly match
at least one record and debug output is off, the improved geocoder
returns exactly the baseline result (so the result does not depend on
the fuzzy pipeline at all), every returned score is exactly 1.0, and the
exact stage is the wildcard-equality filter over the reference table. -/
theorem exact_match_short_circuits
    (fuzzyOnly : String → ℕ → Bool → GeocodeResult)
    (query : String) (limit : ℕ) (df : List AddressRecord)
    (hlim : 0 < limit) (hmatch : ∃ r ∈ df, exactWildcardMatch query r) :
    geocode_improved fuzzyOnly query limit false df =
      geocode_basic query limit df ∧
    (∀ o ∈ (geocode_improved fuzzyOnly query limit false df).objects,
      o.score = 1) ∧
    (geocode_basic query limit df).objects =
      ((df.filter (basicMatches query)).take limit).map
        (fun r => mkObject r 1) := by
  obtain ⟨r, hr, hmr⟩ := hmatch
  have hfil : r ∈ df.filter (basicMatches query) :=
    List.mem_filter.mpr ⟨hr, (basicMatches_iff query r).mpr hmr⟩
  have htake : (df.filter (basicMatches query)).take limit ≠ [] := by
    rw [Ne, List.take_eq_nil_iff]
    push_neg
    exact ⟨Nat.pos_iff_ne_zero.mp hlim, List.ne_nil_of_mem hfil⟩
  have hobj : (geocode_basic query limit df).objects ≠ [] := by
    simp only [geocode_basic, Ne, List.map_eq_nil_iff]
    exact htake
  have hie : (geocode_basic query limit df).objects.isEmpty = false :=
    List.isEmpty_eq_false.mpr hobj
  have hmain : geocode_improved fuzzyOnly query limit false df =
      geocode_basic query limit df := by
    simp only [geocode_improved, if_neg Bool.false_ne_true]
    rw [if_pos (by rw [hie]; rfl)]
  refine ⟨hmain, ?_, rfl⟩
  rw [hmain]
  intro o ho
  simp only [geocode_basic, List.mem_map] at ho
  obtain ⟨r2, -, hr2⟩ := ho
  rw [← hr2]
  rfl

/-- Witness for `exact_match_short_circuits` at a concrete table. -/
theorem exact_match_short_circuits_witness :
    (0 < 5 ∧ ∃ r ∈ [AddressRecord.mk "Москва" "Тверская улица" "12" 37 55
        "москва" "тверская улица" "12"],
      exactWildcardMatch "Москва, Тверская улица, 12" r) ∧
    geocode_improved (fun q _ _ => { searched_address := q, objects := [] })
        "Москва, Тверская улица, 12" 5
        false [AddressRecord.mk "Москва" "Тверская улица" "12" 37 55
          "москва" "тверская улица" "12"] =
      geocode_basic "Москва, Тверская улица, 12" 5
        [AddressRecord.mk "Москва" "Тверская улица" "12" 37 55
          "москва" "тверская улица" "12"] :=
  ⟨⟨by norm_num, ⟨AddressRecord.mk "Москва" "Тверская улица" "12" 37 55
      "москва" "тверская улица" "12", by simp, by
        unfold exactWildcardMatch
        refine ⟨Or.inr (by decide), Or.inr (by decide), Or.inr (by decide)⟩⟩⟩,
    (exact_match_short_circuits _ _ 5 _ (by norm_num)
      ⟨AddressRecord.mk "Москва" "Тверская улица" "12" 37 55
        "москва" "тверская улица" "12", by simp, by
        unfold exactWildcardMatch
        refine ⟨Or.inr (by decide), Or.inr (by decide), Or.inr (by decide)⟩⟩).1⟩

/-- Claim C10: a query whose three normalized components are all empty
makes every filter clause a wildcard, so the exact-stage geocoder returns
the first `limit` records of the table, each with score exactly 1.0 —
not an empty result. -/
theorem empty_query_returns_head (query : String) (limit : ℕ)
    (df : List AddressRecord)
    (hc : norm_city (basicComponents query).1 = "")
    (hs : norm_street (basicComponents query).2.1 = "")
    (hn : norm_number (basicComponents query).2.2 = "") :
    geocode_basic query limit df =
      { searched_address := query,
        objects := (df.take limit).map (fun r => mkObject r 1) } ∧
    (df ≠ [] → 0 < limit → (geocode_basic query limit df).objects ≠ []) ∧
    (∀ o ∈ (geocode_basic query limit df).objects, o.score = 1) := by
  have hall : ∀ r ∈ df, basicMatches query r = true := by
    intro r _
    simp [basicMatches, hc, hs, hn]
  have hfil : df.filter (basicMatches query) = df :=
    List.filter_eq_self.mpr hall
  have hmain : geocode_basic query limit df =
      { searched_address := query,
        objects := (df.take limit).map (fun r => mkObject r 1) } := by
    simp only [geocode_basic, hfil]
  refine ⟨hmain, ?_, ?_⟩
  · intro hdf hlim
    rw [hmain]
    simp only [Ne, List.map_eq_nil_iff, List.take_eq_nil_iff]
    push_neg
    exact ⟨Nat.pos_iff_ne_zero.mp hlim, hdf⟩
  · intro o ho
    simp only [geocode_basic, List.mem_map] at ho
    obtain ⟨r2, -, hr2⟩ := ho
    rw [← hr2]
    rfl

/-- Witness for `empty_query_returns_head` at the empty query. -/
theorem empty_query_returns_head_witness :
    (norm_city (basicComponents "").1 = "" ∧
      norm_street (basicComponents "").2.1 = "" ∧
      norm_number (basicComponents "").2.2 = "") ∧
    geocode_basic "" 5 [AddressRecord.mk "Москва" "Арбат" "1" 37 55
        "москва" "арбат улица" "1"] =
      { searched_address := "",
        objects := ([AddressRecord.mk "Москва" "Арбат" "1" 37 55
          "москва" "арбат улица" "1"].take 5).map (fun r => mkObject r 1) } :=
  ⟨⟨by decide, by decide, by decide⟩,
    (empty_query_returns_head "" 5 _ (by decide) (by decide) (by decide)).1⟩

/-- Claim C8 counterexample: the query `тверская 12` specifies no city,
yet the fuzzy-stage candidate pool is not the whole table: the normalized
city defaults to `москва` and a record with `city_norm = "спб"` is
filtered out. -/
theorem fuzzy_city_pool_cex :
    (parse_address "тверская 12").1 = "" ∧
    fuzzyCityPool "тверская 12"
        [AddressRecord.mk "Питер" "Невский проспект" "1" 30 59
          "спб" "невский проспект" "1"] ≠
      [AddressRecord.mk "Питер" "Невский проспект" "1" 30 59
        "спб" "невский проспект" "1"] := by
  exact ⟨by decide, by decide⟩

/-- Claim C8 (amended): with no city part the normalized query city
defaults to `москва` and the pool is the `москва`-filtered table; with a
city part whose normalization is nonempty the pool is filtered on that
city; only a city part that normalizes to the empty string leaves the
whole table. -/
theorem fuzzy_city_pool_cases (query : String) (df : List AddressRecord) :
    ((parse_address query).1 = "" →
      fuzzyCityPool query df =
        df.filter (fun r => r.city_norm == "москва")) ∧
    ((parse_address query).1 ≠ "" → norm_city (parse_address query).1 ≠ "" →
      fuzzyCityPool query df =
        df.filter (fun r => r.city_norm == norm_city (parse_address query).1)) ∧
    ((parse_address query).1 ≠ "" → norm_city (parse_address query).1 = "" →
      fuzzyCityPool query df = df) := by
  refine ⟨?_, ?_, ?_⟩
  · intro h
    simp only [fuzzyCityPool, h]
    rfl
  · intro h hn
    have hne : ((parse_address query).1.data.isEmpty) = false :=
      List.isEmpty_eq_false.mpr (fun hd => h (string_data_empty hd))
    have hnn : ((norm_city (parse_address query).1).data.isEmpty) = false :=
      List.isEmpty_eq_false.mpr (fun hd => hn (string_data_empty hd))
    simp only [fuzzyCityPool, hne]
    rw [if_neg Bool.false_ne_true, hnn, if_neg Bool.false_ne_true]
  · intro h hn
    have hne : ((parse_address query).1.data.isEmpty) = false :=
      List.isEmpty_eq_false.mpr (fun hd => h (string_data_empty hd))
    simp only [fuzzyCityPool, hne]
    rw [if_neg Bool.false_ne_true, hn]
    rw [if_pos (by rfl : ("" : String).data.isEmpty = true)]

/-- Witness for `fuzzy_city_pool_cases` at a concrete query and table. -/
theorem fuzzy_city_pool_cases_witness :
    (parse_address "арбат 1").1 = "" ∧
    fuzzyCityPool "арбат 1" [AddressRecord.mk "Москва" "Арбат" "1" 37 55
        "москва" "арбат улица" "1"] =
      [AddressRecord.mk "Москва" "Арбат" "1" 37 55
        "москва" "арбат улица" "1"].filter (fun r => r.city_norm == "москва") :=
  ⟨by decide, (fuzzy_city_pool_cases "арбат 1" _).1 (by decide)⟩

/-- Claim C6 counterexample: in `тверская 12 подъезд` the token `подъезд`
of the street/number source is dropped from both the raw street and the
raw number (it is scanned and skipped before the digit token is found). -/
theorem parse_address_drops_token_cex :
    parse_address "тверская 12 подъезд" = ("", "тверская", "12") ∧
    "подъезд" ∈ (words "тверская 12 подъезд".data).map String.mk ∧
    "подъезд" ∉ (words (parse_address "тверская 12 подъезд").2.1.data).map
      String.mk ∧
    "подъезд" ∉ (words (parse_address "тверская 12 подъезд").2.2.data).map
      String.mk := by
  exact ⟨by decide, by decide, by decide, by decide⟩

/-- Claim C7 counterexample: `norm_number` is not idempotent.  On
`1корп2 корп 3` the first pass rewrites `1корп2` to `1 к2` and scanning
continues past the inserted `2`, leaving `корп 3`; the second pass then
matches `2 корп 3` and rewrites further. -/
theorem norm_number_not_idempotent_cex :
    norm_number "1корп2 корп 3" = "1 к2 корп 3" ∧
    norm_number (norm_number "1корп2 корп 3") = "1 к2 к3" ∧
    norm_number (norm_number "1корп2 корп 3") ≠ norm_number "1корп2 корп 3" := by
  exact ⟨by decide, by decide, by decide⟩



/-- Helper: a Boolean that is not true is false. -/
theorem bool_eq_false {b : Bool} (h : ¬b = true) : b = false := by
  cases b
  · rfl
  · exact absurd rfl h

/-- Helper: the head of a `dropWhile` result falsifies the predicate. -/
theorem dropWhile_head_false {α : Type} (p : α → Bool) (l : List α)
    {a : α} {t : List α} (h : l.dropWhile p = a :: t) : p a = false := by
  induction l with
  | nil => simp at h
  | cons x xs ih =>
    rw [List.dropWhile_cons] at h
    by_cases hx : p x = true
    · rw [if_pos hx] at h
      exact ih h
    · rw [if_neg hx] at h
      injection h with h1 _
      rw [← h1]
      exact bool_eq_false hx

/-- Helper: the skipping phase of the backward scan — before any digit
token is seen, tokens are dropped without being collected. -/
theorem scanRev_skip (rev : List (List Char)) : ∀ i : ℕ,
    scanRev rev i false [] none =
      scanRev (rev.dropWhile (fun t => !containsDigitL t))
        (i - (rev.takeWhile (fun t => !containsDigitL t)).length)
        false [] none := by
  induction rev with
  | nil => intro i; simp
  | cons t rest ih =>
    intro i
    by_cases hd : containsDigitL t = true
    · simp [List.dropWhile_cons, List.takeWhile_cons, hd]
    · have hd0 : containsDigitL t = false := bool_eq_false hd
      have hstep : scanRev (t :: rest) i false [] none =
          scanRev rest (i - 1) false [] none := by
        simp only [scanRev, hd0]
        norm_num
      rw [hstep, ih (i - 1)]
      simp only [List.dropWhile_cons, List.takeWhile_cons, hd0]
      norm_num
      congr 1
      omega

/-- Helper: the collecting phase of the backward scan — once a digit has
been seen, the scan collects the maximal qualifying run, capped so that
at most 4 tokens are collected in total, and reports the index of the
last-consumed digit token. -/
theorem scanRev_collect (l : List (List Char)) : ∀ (i : ℕ)
    (nts : List (List Char)) (idx : Option ℕ),
    scanRev l i true nts idx =
      ((match lastDigitIdxOpt ((l.takeWhile qualifiesTok).take (4 - nts.length)) with
        | some p => some (i - p)
        | none => idx),
       ((l.takeWhile qualifiesTok).take (4 - nts.length)).reverse ++ nts) := by
  induction l with
  | nil =>
    intro i nts idx
    simp [scanRev, lastDigitIdxOpt]
  | cons t rest ih =>
    intro i nts idx
    by_cases hcap : nts.length ≥ 4
    · have hc0 : 4 - nts.length = 0 := Nat.sub_eq_zero_of_le hcap
      simp only [scanRev, if_pos hcap, hc0, List.take_zero, lastDigitIdxOpt,
        List.reverse_nil, List.nil_append]
    · have hc : 4 - nts.length = (3 - nts.length) + 1 := by omega
      have hc2 : 3 - nts.length = 4 - (t :: nts).length := by
        simp only [List.length_cons]
        omega
      by_cases hd : containsDigitL t = true
      · have hq : qualifiesTok t = true := by simp [qualifiesTok, hd]
        rw [List.takeWhile_cons_of_pos hq, hc, List.take_succ_cons, hc2]
        have hstep : scanRev (t :: rest) i true nts idx =
            scanRev rest (i - 1) true (t :: nts) (some i) := by
          simp only [scanRev]
          rw [if_neg hcap]
          simp [hd]
        rw [hstep, ih (i - 1) (t :: nts) (some i)]
        rcases hldo : lastDigitIdxOpt ((rest.takeWhile qualifiesTok).take
            (4 - (t :: nts).length)) with - | p
        · simp only [lastDigitIdxOpt, hldo, hd, if_pos, Nat.sub_zero,
            List.reverse_cons, List.append_assoc, List.singleton_append]
        · have : i - 1 - p = i - (p + 1) := by omega
          simp only [lastDigitIdxOpt, hldo, this,
            List.reverse_cons, List.append_assoc, List.singleton_append]
      · by_cases hlen : ((t.map lowerChar).length ≤ 4)
        · by_cases hmk : scanMarkerWords.contains (t.map lowerChar) = true
          · have hq : qualifiesTok t = true := by
              simp only [qualifiesTok, Bool.or_eq_true, Bool.and_eq_true,
                decide_eq_true_eq]
              exact Or.inr ⟨hlen, hmk⟩
            rw [List.takeWhile_cons_of_pos hq, hc, List.take_succ_cons, hc2]
            have hstep : scanRev (t :: rest) i true nts idx =
                scanRev rest (i - 1) true (t :: nts) idx := by
              simp only [scanRev]
              rw [if_neg hcap]
              simp only [bool_eq_false hd, Bool.false_eq_true, if_false,
                Bool.true_and]
              have hlen2 : t.length ≤ 4 := by simpa using hlen
              have hmk2 : List.map lowerChar t ∈ scanMarkerWords := by
                simpa using hmk
              simp [hlen2, hmk2]
            rw [hstep, ih (i - 1) (t :: nts) idx]
            rcases hldo : lastDigitIdxOpt ((rest.takeWhile qualifiesTok).take
                (4 - (t :: nts).length)) with - | p
            · simp only [lastDigitIdxOpt, hldo, hd, Bool.false_eq_true,
                if_false, List.reverse_cons, List.append_assoc,
                List.singleton_append]
            · have : i - 1 - p = i - (p + 1) := by omega
              simp only [lastDigitIdxOpt, hldo, this, List.reverse_cons,
                List.append_assoc, List.singleton_append]
          · have hq : qualifiesTok t = false := by
              rw [qualifiesTok, bool_eq_false hd, bool_eq_false hmk,
                Bool.and_false, Bool.or_false]
            rw [List.takeWhile_cons_of_neg (by simp [hq])]
            have hstep : scanRev (t :: rest) i true nts idx = (idx, nts) := by
              simp only [scanRev]
              rw [if_neg hcap]
              simp only [bool_eq_false hd, Bool.false_eq_true, if_false,
                Bool.true_and]
              have hlen2 : t.length ≤ 4 := by simpa using hlen
              have hmk2 : List.map lowerChar t ∉ scanMarkerWords :=
                fun hm => hmk (by simpa using hm)
              simp [hlen2, hmk2]
            rw [hstep]
            simp [lastDigitIdxOpt]
        · have hq : qualifiesTok t = false := by
            rw [qualifiesTok, bool_eq_false hd,
              decide_eq_false hlen, Bool.false_and, Bool.or_false]
          rw [List.takeWhile_cons_of_neg (by simp [hq])]
          have hone : ((t.map lowerChar).length == 1) = false := by
            simp only [beq_eq_false_iff_ne, Ne]
            omega
          have hstep : scanRev (t :: rest) i true nts idx = (idx, nts) := by
            simp only [scanRev]
            rw [if_neg hcap]
            simp only [bool_eq_false hd, Bool.false_eq_true, if_false,
              Bool.true_and]
            have hlen2 : ¬t.length ≤ 4 := by simpa using hlen
            have hone2 : ¬(t.length = 1 ∧ isSingleLetterTok
                (List.map lowerChar t) = true) := by
              rintro ⟨h1, -⟩
              exact hlen2 (by omega)
            simp [hlen2, hone2]
          rw [hstep]
          simp [lastDigitIdxOpt]

/-- Helper: the backward scan equals its two-phase description. -/
theorem scanNumberTail_eq_spec (toks : List (List Char)) :
    scanNumberTail toks = specScanStreetNumber toks := by
  unfold scanNumberTail
  rw [scanRev_skip]
  rcases hrest : toks.reverse.dropWhile (fun t => !containsDigitL t)
    with - | ⟨d, rest2⟩
  · simp only [specScanStreetNumber, hrest]
    simp [scanRev]
  · simp only [specScanStreetNumber, hrest]
    have hd : containsDigitL d = true := by
      have h2 := dropWhile_head_false (fun t => !containsDigitL t)
        toks.reverse hrest
      simpa using h2
    have hstep : ∀ j : ℕ, scanRev (d :: rest2) j false [] none =
        scanRev rest2 (j - 1) true [d] (some j) := by
      intro j
      simp only [scanRev]
      rw [if_neg (by simp)]
      simp [hd]
    rw [hstep, scanRev_collect]
    have h41 : 4 - ([d] : List (List Char)).length = 3 := rfl
    rw [h41]
    rcases hldo : lastDigitIdxOpt ((rest2.takeWhile qualifiesTok).take 3)
      with - | p
    · simp only [lastDigitIdxOpt, hldo]
      simp [hd, List.reverse_cons]
    · simp only [lastDigitIdxOpt, hldo]
      have harith : ∀ j : ℕ, j - 1 - p = j - (p + 1) := fun j => by omega
      simp [harith, List.reverse_cons]

/-- Claim C6 (amended): `parse_address` splits on commas, takes the first
segment as city when it contains `моск`, and on the street/number source
scans the tokens backward: tokens are skipped (and dropped) until the
first digit-containing token, from which a maximal qualifying run — at
most 4 tokens, where after the digit only marker words of lowercase
length at most 4 qualify, bare single letters not qualifying — is
collected as the raw number (in original order), while the tokens before
the last-consumed digit-containing token become the raw street; a further
comma segment is appended to (or becomes) the raw number. -/
theorem parse_address_characterized (query : String) :
    parse_address query = parse_address_spec query ∧
    ∀ toks : List (List Char), (scanNumberTail toks).2.length ≤ 4 := by
  constructor
  · simp only [parse_address, parse_address_spec, scanNumberTail_eq_spec]
  · intro toks
    rw [scanNumberTail_eq_spec]
    rcases hrest : toks.reverse.dropWhile (fun t => !containsDigitL t)
      with - | ⟨d, rest2⟩
    · simp [specScanStreetNumber, hrest]
    · simp only [specScanStreetNumber, hrest]
      simp only [List.reverse_cons, List.length_append, List.length_reverse,
        List.length_take, List.length_cons, List.length_nil]
      have := List.length_take_le 3 (rest2.takeWhile qualifiesTok)
      omega



/-! ### List and character lemmas for the idempotence proofs -/

/-- Helper: mapping a function that fixes every element is the identity. -/
theorem map_id_of_fixed {α : Type} (f : α → α) (l : List α)
    (h : ∀ c ∈ l, f c = c) : l.map f = l := by
  induction l with
  | nil => rfl
  | cons c rest ih =>
    rw [List.map_cons, h c (by simp), ih (fun x hx => h x (by simp [hx]))]

/-- Helper: `dropWhile` is the identity when the head falsifies the
predicate. -/
theorem dropWhile_eq_self_of_head {α : Type} (p : α → Bool) (l : List α)
    (h : ∀ c, l.head? = some c → p c = false) : l.dropWhile p = l := by
  cases l with
  | nil => rfl
  | cons c rest =>
    rw [List.dropWhile_cons, h c rfl]
    simp

/-- Helper: `head?` of an append with a nonempty left part. -/
theorem head?_append_of_ne_nil {α : Type} (l l' : List α) (h : l ≠ []) :
    (l ++ l').head? = l.head? := by
  cases l with
  | nil => exact absurd rfl h
  | cons c rest => rfl

/-- Helper: every word produced by `wordsAux` is nonempty and free of
whitespace (given a whitespace-free accumulator). -/
theorem wordsAux_good (l : List Char) : ∀ acc : List Char,
    (∀ c ∈ acc, isWsChar c = false) →
    ∀ w ∈ wordsAux l acc, w ≠ [] ∧ ∀ c ∈ w, isWsChar c = false := by
  induction l with
  | nil =>
    intro acc hacc w hw
    simp only [wordsAux] at hw
    by_cases hne : acc.isEmpty
    · rw [if_pos hne] at hw
      simp at hw
    · rw [if_neg hne] at hw
      simp only [List.mem_singleton] at hw
      subst hw
      refine ⟨?_, ?_⟩
      · simp only [Ne, List.reverse_eq_nil_iff]
        intro h
        exact hne (by simp [h])
      · intro c hc
        exact hacc c (List.mem_reverse.mp hc)
  | cons c rest ih =>
    intro acc hacc w hw
    simp only [wordsAux] at hw
    by_cases hws : isWsChar c = true
    · rw [if_pos hws] at hw
      by_cases hne : acc.isEmpty
      · rw [if_pos hne] at hw
        exact ih [] (by simp) w hw
      · rw [if_neg hne] at hw
        rcases List.mem_cons.mp hw with hw | hw
        · subst hw
          refine ⟨?_, ?_⟩
          · simp only [Ne, List.reverse_eq_nil_iff]
            intro h
            exact hne (by simp [h])
          · intro x hx
            exact hacc x (List.mem_reverse.mp hx)
        · exact ih [] (by simp) w hw
    · rw [if_neg hws] at hw
      refine ih (c :: acc) ?_ w hw
      intro x hx
      rcases List.mem_cons.mp hx with hx | hx
      · subst hx
        exact bool_eq_false hws
      · exact hacc x hx

/-- Helper: every word of `words l` is nonempty and whitespace-free. -/
theorem words_good (l : List Char) :
    ∀ w ∈ words l, w ≠ [] ∧ ∀ c ∈ w, isWsChar c = false :=
  wordsAux_good l [] (by simp)

/-- Helper: characters of `wordsAux` output come from the accumulator or
the input. -/
theorem wordsAux_subset (l : List Char) : ∀ acc : List Char,
    ∀ w ∈ wordsAux l acc, ∀ c ∈ w, c ∈ acc ∨ c ∈ l := by
  induction l with
  | nil =>
    intro acc w hw c hc
    simp only [wordsAux] at hw
    by_cases hne : acc.isEmpty
    · rw [if_pos hne] at hw
      simp at hw
    · rw [if_neg hne] at hw
      simp only [List.mem_singleton] at hw
      subst hw
      exact Or.inl (List.mem_reverse.mp hc)
  | cons x rest ih =>
    intro acc w hw c hc
    simp only [wordsAux] at hw
    by_cases hws : isWsChar x = true
    · rw [if_pos hws] at hw
      by_cases hne : acc.isEmpty
      · rw [if_pos hne] at hw
        rcases ih [] w hw c hc with h | h
        · simp at h
        · exact Or.inr (by simp [h])
      · rw [if_neg hne] at hw
        rcases List.mem_cons.mp hw with hw | hw
        · subst hw
          exact Or.inl (List.mem_reverse.mp hc)
        · rcases ih [] w hw c hc with h | h
          · simp at h
          · exact Or.inr (by simp [h])
    · rw [if_neg hws] at hw
      rcases ih (x :: acc) w hw c hc with h | h
      · rcases List.mem_cons.mp h with h | h
        · exact Or.inr (by simp [h])
        · exact Or.inl h
      · exact Or.inr (by simp [h])

/-- Helper: characters of `words l` come from `l`. -/
theorem words_subset (l : List Char) :
    ∀ w ∈ words l, ∀ c ∈ w, c ∈ l := by
  intro w hw c hc
  rcases wordsAux_subset l [] w hw c hc with h | h
  · simp at h
  · exact h

/-- Helper: scanning a whitespace-free word prepends it (reversed) to the
accumulator. -/
theorem wordsAux_append_word (w : List Char)
    (hw : ∀ c ∈ w, isWsChar c = false) : ∀ (l acc : List Char),
    wordsAux (w ++ l) acc = wordsAux l (w.reverse ++ acc) := by
  induction w with
  | nil => intro l acc; simp
  | cons c rest ih =>
    intro l acc
    have hc : isWsChar c = false := hw c (by simp)
    show wordsAux (c :: (rest ++ l)) acc = wordsAux l ((c :: rest).reverse ++ acc)
    simp only [wordsAux, hc, Bool.false_eq_true, if_false]
    rw [ih (fun x hx => hw x (by simp [hx])) l (c :: acc)]
    congr 1
    simp

/-- Helper: `words` of a space-join of good words recovers the words. -/
theorem words_joinSp (parts : List (List Char))
    (h : ∀ w ∈ parts, w ≠ [] ∧ ∀ c ∈ w, isWsChar c = false) :
    words (joinSp parts) = parts := by
  induction parts with
  | nil => rfl
  | cons w rest ih =>
    obtain ⟨hwne, hwws⟩ := h w (by simp)
    have hwrev : ¬w.reverse.isEmpty := by
      simp only [List.isEmpty_iff, List.reverse_eq_nil_iff]
      exact hwne
    cases rest with
    | nil =>
      show wordsAux w [] = [w]
      have h2 := wordsAux_append_word w hwws [] []
      simp only [List.append_nil] at h2
      rw [h2]
      simp only [wordsAux]
      rw [if_neg hwrev]
      simp
    | cons w2 rest2 =>
      show wordsAux (w ++ ' ' :: joinSp (w2 :: rest2)) [] = w :: w2 :: rest2
      rw [wordsAux_append_word w hwws _ []]
      simp only [wordsAux, List.append_nil]
      rw [if_pos (by rfl), if_neg hwrev]
      rw [show wordsAux (joinSp (w2 :: rest2)) [] =
        words (joinSp (w2 :: rest2)) from rfl]
      rw [ih (fun x hx => h x (by simp [hx]))]
      simp

/-- Helper: a space-join with a nonempty first word is nonempty. -/
theorem joinSp_ne_nil (w : List Char) (rest : List (List Char))
    (hw : w ≠ []) : joinSp (w :: rest) ≠ [] := by
  cases rest with
  | nil => exact hw
  | cons w2 rest2 =>
    show w ++ ' ' :: joinSp (w2 :: rest2) ≠ []
    simp

/-- Helper: characters of a space-join are spaces or word characters. -/
theorem mem_joinSp (parts : List (List Char)) (c : Char)
    (hc : c ∈ joinSp parts) : c = ' ' ∨ ∃ w ∈ parts, c ∈ w := by
  induction parts with
  | nil => simp [joinSp] at hc
  | cons w rest ih =>
    cases rest with
    | nil =>
      exact Or.inr ⟨w, by simp, hc⟩
    | cons w2 rest2 =>
      rcases List.mem_append.mp hc with h | h
      · exact Or.inr ⟨w, by simp, h⟩
      · rcases List.mem_cons.mp h with h | h
        · exact Or.inl h
        · rcases ih h with h2 | ⟨w3, hw3, hcw3⟩
          · exact Or.inl h2
          · exact Or.inr ⟨w3, by simp [hw3], hcw3⟩

/-- Helper: the last character of a space-join of good words is a word
character. -/
theorem joinSp_reverse_head (parts : List (List Char))
    (h : ∀ w ∈ parts, w ≠ [] ∧ ∀ c ∈ w, isWsChar c = false) :
    ∀ c, (joinSp parts).reverse.head? = some c → isWsChar c = false := by
  induction parts with
  | nil => intro c hc; simp [joinSp] at hc
  | cons w rest ih =>
    obtain ⟨hwne, hwws⟩ := h w (by simp)
    cases rest with
    | nil =>
      intro c hc
      have hji : joinSp [w] = w := rfl
      rw [hji] at hc
      have hcmem : c ∈ w.reverse := by
        cases hrev : w.reverse with
        | nil => rw [hrev] at hc; simp at hc
        | cons x t =>
          rw [hrev] at hc
          injection hc with hc
          simp [hc]
      exact hwws c (List.mem_reverse.mp hcmem)
    | cons w2 rest2 =>
      intro c hc
      obtain ⟨hw2ne, -⟩ := h w2 (by simp)
      have hjne : joinSp (w2 :: rest2) ≠ [] := joinSp_ne_nil w2 rest2 hw2ne
      have hrevne : (joinSp (w2 :: rest2)).reverse ≠ [] := by
        simp only [Ne, List.reverse_eq_nil_iff]
        exact hjne
      have hstruct : (joinSp (w :: w2 :: rest2)).reverse =
          (joinSp (w2 :: rest2)).reverse ++ [' '] ++ w.reverse := by
        show (w ++ ' ' :: joinSp (w2 :: rest2)).reverse = _
        rw [List.reverse_append, List.reverse_cons]
      rw [hstruct, List.append_assoc,
        head?_append_of_ne_nil _ _ hrevne] at hc
      exact ih (fun x hx => h x (by simp [hx])) c hc

/-- Helper: trimming a space-join of good words is the identity. -/
theorem trimL_joinSp (parts : List (List Char))
    (h : ∀ w ∈ parts, w ≠ [] ∧ ∀ c ∈ w, isWsChar c = false) :
    trimL (joinSp parts) = joinSp parts := by
  unfold trimL
  have h1 : (joinSp parts).dropWhile isWsChar = joinSp parts := by
    apply dropWhile_eq_self_of_head
    intro c hc
    cases parts with
    | nil => simp [joinSp] at hc
    | cons w rest =>
      obtain ⟨hwne, hwws⟩ := h w (by simp)
      cases w with
      | nil => exact absurd rfl hwne
      | cons x t =>
        have hx : c = x := by
          cases rest with
          | nil => injection hc with hc; exact hc.symm
          | cons w2 rest2 =>
            have : joinSp ((x :: t) :: w2 :: rest2) =
                x :: (t ++ ' ' :: joinSp (w2 :: rest2)) := rfl
            rw [this] at hc
            injection hc with hc
            exact hc.symm
        subst hx
        exact hwws c (by simp)
  rw [h1]
  have h2 : (joinSp parts).reverse.dropWhile isWsChar =
      (joinSp parts).reverse := by
    apply dropWhile_eq_self_of_head
    exact joinSp_reverse_head parts h
  rw [h2, List.reverse_reverse]



/-- Helper: `lowerChar` either fixes a character or yields a table value. -/
theorem lowerChar_cases (c : Char) :
    lowerChar c = c ∨ ∃ p ∈ lowerPairs, lowerChar c = p.2 := by
  unfold lowerChar
  rcases hf : lowerPairs.find? (fun p => p.1 == c) with - | p
  · rw [hf]
    exact Or.inl rfl
  · rw [hf]
    exact Or.inr ⟨p, List.mem_of_find?_eq_some hf, rfl⟩

/-- Helper: no lowercase value of the table is an uppercase key. -/
theorem lowerPairs_values_not_keys :
    ∀ p ∈ lowerPairs, ∀ q ∈ lowerPairs, (q.1 == p.2) = false := by decide

/-- Helper: `lowerChar` fixes every table value. -/
theorem lowerChar_value_fixed : ∀ p ∈ lowerPairs, lowerChar p.2 = p.2 := by
  intro p hp
  unfold lowerChar
  rw [List.find?_eq_none.mpr (fun q hq => by
    rw [lowerPairs_values_not_keys p hp q hq]; simp)]

/-- Helper: `lowerChar` is idempotent. -/
theorem lowerChar_idem (c : Char) : lowerChar (lowerChar c) = lowerChar c := by
  rcases lowerChar_cases c with h | ⟨p, hp, h⟩
  · rw [h]
    exact h
  · rw [h, lowerChar_value_fixed p hp]

/-- Helper: `cyrLower` either fixes a character or yields a table value. -/
theorem cyrLower_cases (c : Char) :
    cyrLower c = c ∨ ∃ p ∈ cyrPairs, cyrLower c = p.2 := by
  unfold cyrLower
  rcases hf : cyrPairs.find? (fun p => p.1 == c) with - | p
  · rw [hf]
    exact Or.inl rfl
  · rw [hf]
    exact Or.inr ⟨p, List.mem_of_find?_eq_some hf, rfl⟩

/-- Helper: no lowercase value of the Cyrillic table is a key. -/
theorem cyrPairs_values_not_keys :
    ∀ p ∈ cyrPairs, ∀ q ∈ cyrPairs, (q.1 == p.2) = false := by decide

/-- Helper: `cyrLower` fixes every table value. -/
theorem cyrLower_value_fixed : ∀ p ∈ cyrPairs, cyrLower p.2 = p.2 := by
  intro p hp
  unfold cyrLower
  rw [List.find?_eq_none.mpr (fun q hq => by
    rw [cyrPairs_values_not_keys p hp q hq]; simp)]

/-- Helper: `cyrLower` is idempotent. -/
theorem cyrLower_idem (c : Char) : cyrLower (cyrLower c) = cyrLower c := by
  rcases cyrLower_cases c with h | ⟨p, hp, h⟩
  · rw [h]
    exact h
  · rw [h, cyrLower_value_fixed p hp]

/-- Helper: every adjective value is a good token, looks itself up in the
adjective table, and is not a street type. -/
theorem adjPairs_values_canonical :
    ∀ p ∈ adjPairs, GoodTok p.2 ∧ adjLookup p.2 = some p.2 ∧
      stLookup (rstripDot p.2) = none := by decide

/-- Helper: every street-type value is a good token and looks itself up
in the street-type table. -/
theorem streetTypePairs_values_canonical :
    ∀ p ∈ streetTypePairs, GoodTok p.2 ∧
      stLookup (rstripDot p.2) = some p.2 := by decide

/-- Helper: the default street type is a good token and looks itself up. -/
theorem ulitsa_canonical :
    GoodTok "улица".data ∧
      stLookup (rstripDot "улица".data) = some "улица".data := by decide

/-- Helper: classification of a canonical core followed by a type token. -/
theorem classifyAux_core_canonical (core : List (List Char)) :
    ∀ (ty : List Char) (adj0 ty0 : Option (List Char))
      (acc : List (List Char)),
    (∀ t ∈ core, stLookup (rstripDot t) = none ∧ adjLookup t = none) →
    stLookup (rstripDot ty) = some ty →
    classifyAux (core ++ [ty]) adj0 ty0 acc = (adj0, some ty, acc ++ core) := by
  induction core with
  | nil =>
    intro ty adj0 ty0 acc hcore hty
    show classifyAux [ty] adj0 ty0 acc = _
    simp only [classifyAux, hty, List.append_nil]
  | cons t rest ih =>
    intro ty adj0 ty0 acc hcore hty
    obtain ⟨hst, hadj⟩ := hcore t (by simp)
    show classifyAux (t :: (rest ++ [ty])) adj0 ty0 acc = _
    simp only [classifyAux, hst, hadj]
    rw [ih ty adj0 ty0 (acc ++ [t])
      (fun x hx => hcore x (by simp [hx])) hty]
    simp

/-- Helper: classification of a full canonical street token list. -/
theorem classify_canonical (adj : Option (List Char))
    (core : List (List Char)) (ty : List Char)
    (hadj : ∀ a, adj = some a →
      adjLookup a = some a ∧ stLookup (rstripDot a) = none)
    (hcore : ∀ t ∈ core, stLookup (rstripDot t) = none ∧ adjLookup t = none)
    (hty : stLookup (rstripDot ty) = some ty) :
    classifyAux (streetShape adj core ty) none none [] =
      (adj, some ty, core) := by
  cases adj with
  | none =>
    have h := classifyAux_core_canonical core ty none none [] hcore hty
    simpa [streetShape] using h
  | some a =>
    obtain ⟨ha1, ha2⟩ := hadj a rfl
    show classifyAux (a :: (core ++ [ty])) none none [] = _
    simp only [classifyAux, ha2, ha1]
    have h := classifyAux_core_canonical core ty (some a) none [] hcore hty
    simpa using h



/-- Helper: assembly with a found street type is the canonical shape. -/
theorem assembleStreet_some (adjF : Option (List Char)) (ty : List Char)
    (core : List (List Char)) :
    assembleStreet adjF (some ty) core = streetShape adjF core ty := by
  cases adjF <;> rfl

/-- Helper: assembly with no street type but a nonempty state appends the
default type. -/
theorem assembleStreet_none (adjF : Option (List Char))
    (core : List (List Char))
    (h : (adjF.isSome || !core.isEmpty) = true) :
    assembleStreet adjF none core = streetShape adjF core "улица".data := by
  unfold assembleStreet streetShape
  rw [if_pos h]

/-- Helper: `norm_street` fixes every canonical street string. -/
theorem norm_street_fixpoint (adj : Option (List Char))
    (core : List (List Char)) (ty : List Char)
    (hadj : ∀ a, adj = some a →
      GoodTok a ∧ adjLookup a = some a ∧ stLookup (rstripDot a) = none)
    (hcore : ∀ t ∈ core,
      GoodTok t ∧ stLookup (rstripDot t) = none ∧ adjLookup t = none)
    (hty : GoodTok ty ∧ stLookup (rstripDot ty) = some ty) :
    norm_street (String.mk (joinSp (streetShape adj core ty))) =
      String.mk (joinSp (streetShape adj core ty)) := by
  have hgood : ∀ w ∈ streetShape adj core ty, GoodTok w := by
    intro w hw
    rcases List.mem_append.mp hw with hw | hw
    · rcases List.mem_append.mp hw with hw | hw
      · cases adj with
        | none => simp [streetShape] at hw
        | some a =>
          simp only [List.mem_singleton] at hw
          subst hw
          exact (hadj w rfl).1
      · exact (hcore w hw).1
    · simp only [List.mem_singleton] at hw
      subst hw
      exact hty.1
  have hwsfree : ∀ w ∈ streetShape adj core ty,
      w ≠ [] ∧ ∀ c ∈ w, isWsChar c = false :=
    fun w hw => ⟨(hgood w hw).1, fun c hc => ((hgood w hw).2 c hc).1⟩
  have hJchar : ∀ c ∈ joinSp (streetShape adj core ty),
      isPunct c = false ∧ lowerChar c = c := by
    intro c hc
    rcases mem_joinSp _ c hc with h | ⟨w, hw, hcw⟩
    · subst h
      exact ⟨by decide, by decide⟩
    · exact ⟨((hgood w hw).2 c hcw).2.1, ((hgood w hw).2 c hcw).2.2⟩
  have hpne : streetShape adj core ty ≠ [] := by
    simp [streetShape]
  have hne : joinSp (streetShape adj core ty) ≠ [] := by
    cases hp : streetShape adj core ty with
    | nil => exact absurd hp hpne
    | cons w rest =>
      exact joinSp_ne_nil w rest (hgood w (by rw [hp]; simp)).1
  have htrim : trimL (joinSp (streetShape adj core ty)) =
      joinSp (streetShape adj core ty) := trimL_joinSp _ hwsfree
  have hmap : (joinSp (streetShape adj core ty)).map lowerChar =
      joinSp (streetShape adj core ty) :=
    map_id_of_fixed _ _ (fun c hc => (hJchar c hc).2)
  have hfil : (joinSp (streetShape adj core ty)).filter (fun c => !isPunct c) =
      joinSp (streetShape adj core ty) :=
    List.filter_eq_self.mpr (fun c hc => by rw [(hJchar c hc).1]; rfl)
  have hwords : words (joinSp (streetShape adj core ty)) =
      streetShape adj core ty := words_joinSp _ hwsfree
  have hcollapse : collapseWs (joinSp (streetShape adj core ty)) =
      joinSp (streetShape adj core ty) := by
    unfold collapseWs
    rw [hwords]
  have hdata : (String.mk (joinSp (streetShape adj core ty))).data =
      joinSp (streetShape adj core ty) := rfl
  have hclassify := classify_canonical adj core ty
    (fun a ha => ⟨(hadj a ha).2.1, (hadj a ha).2.2⟩)
    (fun t ht => ⟨(hcore t ht).2.1, (hcore t ht).2.2⟩) hty.2
  simp only [norm_street, hdata, htrim, hmap, hfil, hcollapse, hwords]
  rw [if_neg (fun h => hne (List.isEmpty_iff.mp h)),
    if_neg (fun h => hpne (List.isEmpty_iff.mp h))]
  rw [hclassify]
  dsimp only
  rw [assembleStreet_some]
  rw [if_neg (fun h => hpne (List.isEmpty_iff.mp h))]



/-- Helper: a successful adjective lookup yields a table value. -/
theorem adjLookup_mem {t a : List Char} (h : adjLookup t = some a) :
    ∃ p ∈ adjPairs, a = p.2 := by
  unfold adjLookup at h
  rcases hf : adjPairs.find? (fun p => p.1 == t) with - | p
  · rw [hf] at h
    exact absurd (show (none : Option (List Char)) = some a from h) (by simp)
  · rw [hf] at h
    have h2 : some p.2 = some a := h
    injection h2 with h2
    exact ⟨p, List.mem_of_find?_eq_some hf, h2.symm⟩

/-- Helper: a successful street-type lookup yields a table value. -/
theorem stLookup_mem {t a : List Char} (h : stLookup t = some a) :
    ∃ p ∈ streetTypePairs, a = p.2 := by
  unfold stLookup at h
  rcases hf : streetTypePairs.find? (fun p => p.1 == t) with - | p
  · rw [hf] at h
    exact absurd (show (none : Option (List Char)) = some a from h) (by simp)
  · rw [hf] at h
    have h2 : some p.2 = some a := h
    injection h2 with h2
    exact ⟨p, List.mem_of_find?_eq_some hf, h2.symm⟩

/-- Helper: the shape of an arbitrary classification run — found
adjectives and types are table values, core tokens are input tokens
failing both lookups, and a nonempty start state or input yields a
nonempty result state. -/
theorem classifyAux_general (toks : List (List Char)) :
    ∀ (adj0 ty0 : Option (List Char)) (acc : List (List Char)),
    (∀ a, (classifyAux toks adj0 ty0 acc).1 = some a →
      adj0 = some a ∨ ∃ p ∈ adjPairs, a = p.2) ∧
    (∀ t, (classifyAux toks adj0 ty0 acc).2.1 = some t →
      ty0 = some t ∨ ∃ p ∈ streetTypePairs, t = p.2) ∧
    (∀ t ∈ (classifyAux toks adj0 ty0 acc).2.2,
      t ∈ acc ∨ (t ∈ toks ∧ stLookup (rstripDot t) = none ∧
        adjLookup t = none)) ∧
    ((adj0.isSome ∨ ty0.isSome ∨ acc ≠ [] ∨ toks ≠ []) →
      ((classifyAux toks adj0 ty0 acc).1.isSome ∨
        (classifyAux toks adj0 ty0 acc).2.1.isSome ∨
        (classifyAux toks adj0 ty0 acc).2.2 ≠ [])) := by
  induction toks with
  | nil =>
    intro adj0 ty0 acc
    refine ⟨fun a ha => Or.inl ha, fun t ht => Or.inl ht,
      fun t ht => Or.inl ht, ?_⟩
    rintro (h | h | h | h)
    · exact Or.inl h
    · exact Or.inr (Or.inl h)
    · exact Or.inr (Or.inr h)
    · exact absurd rfl h
  | cons t rest ih =>
    intro adj0 ty0 acc
    rcases hst : stLookup (rstripDot t) with - | full
    · rcases hadj : adjLookup t with - | a2
      · have hstep : classifyAux (t :: rest) adj0 ty0 acc =
            classifyAux rest adj0 ty0 (acc ++ [t]) := by
          simp only [classifyAux, hst, hadj]
        rw [hstep]
        obtain ⟨ih1, ih2, ih3, ih4⟩ := ih adj0 ty0 (acc ++ [t])
        refine ⟨ih1, ih2, ?_, fun _ => ih4 (Or.inr (Or.inr (Or.inl (by simp))))⟩
        intro x hx
        rcases ih3 x hx with hx2 | ⟨hx2, hx3⟩
        · rcases List.mem_append.mp hx2 with hx3 | hx3
          · exact Or.inl hx3
          · simp only [List.mem_singleton] at hx3
            subst hx3
            exact Or.inr ⟨by simp, hst, hadj⟩
        · exact Or.inr ⟨by simp [hx2], hx3⟩
      · have hstep : classifyAux (t :: rest) adj0 ty0 acc =
            classifyAux rest (some a2) ty0 acc := by
          simp only [classifyAux, hst, hadj]
        rw [hstep]
        obtain ⟨ih1, ih2, ih3, ih4⟩ := ih (some a2) ty0 acc
        refine ⟨?_, ih2, ?_, fun _ => ih4 (Or.inl rfl)⟩
        · intro a ha
          rcases ih1 a ha with ha2 | ha2
          · injection ha2 with ha2
            subst ha2
            exact Or.inr (adjLookup_mem hadj)
          · exact Or.inr ha2
        · intro x hx
          rcases ih3 x hx with hx2 | ⟨hx2, hx3⟩
          · exact Or.inl hx2
          · exact Or.inr ⟨by simp [hx2], hx3⟩
    · have hstep : classifyAux (t :: rest) adj0 ty0 acc =
          classifyAux rest adj0 (some full) acc := by
        simp only [classifyAux, hst]
      rw [hstep]
      obtain ⟨ih1, ih2, ih3, ih4⟩ := ih adj0 (some full) acc
      refine ⟨ih1, ?_, ?_, fun _ => ih4 (Or.inr (Or.inl rfl))⟩
      · intro x hx
        rcases ih2 x hx with hx2 | hx2
        · injection hx2 with hx2
          subst hx2
          exact Or.inr (stLookup_mem hst)
        · exact Or.inr hx2
      · intro x hx
        rcases ih3 x hx with hx2 | ⟨hx2, hx3⟩
        · exact Or.inl hx2
        · exact Or.inr ⟨by simp [hx2], hx3⟩

/-- Helper: every token produced by `norm_street`'s tokenization is a good
token. -/
theorem norm_street_tokens_good (s : String) :
    ∀ w ∈ words (collapseWs
      (((trimL s.data).map lowerChar).filter (fun c => !isPunct c))),
      GoodTok w := by
  intro w hw
  obtain ⟨hne, hws⟩ := words_good _ w hw
  refine ⟨hne, fun c hc => ⟨hws c hc, ?_, ?_⟩⟩
  all_goals
    have hcl := words_subset _ w hw c hc
    unfold collapseWs at hcl
    rcases mem_joinSp _ c hcl with h | ⟨w2, hw2, hcw2⟩
  · exfalso
    have := hws c hc
    rw [h] at this
    simp [isWsChar] at this
  · have hcX := words_subset _ w2 hw2 c hcw2
    obtain ⟨-, hpu⟩ := List.mem_filter.mp hcX
    simpa using hpu
  · exfalso
    have := hws c hc
    rw [h] at this
    simp [isWsChar] at this
  · have hcX := words_subset _ w2 hw2 c hcw2
    obtain ⟨hmem, -⟩ := List.mem_filter.mp hcX
    obtain ⟨c2, -, hc2⟩ := List.mem_map.mp hmem
    rw [← hc2]
    exact lowerChar_idem c2

/-- Helper: every `norm_street` output is empty or of canonical shape. -/
theorem norm_street_output (s : String) :
    norm_street s = "" ∨
    ∃ adj core ty,
      (∀ a, adj = some a →
        GoodTok a ∧ adjLookup a = some a ∧ stLookup (rstripDot a) = none) ∧
      (∀ t ∈ core,
        GoodTok t ∧ stLookup (rstripDot t) = none ∧ adjLookup t = none) ∧
      (GoodTok ty ∧ stLookup (rstripDot ty) = some ty) ∧
      norm_street s = String.mk (joinSp (streetShape adj core ty)) := by
  by_cases h0 : s.data.isEmpty = true
  · left
    unfold norm_street
    rw [if_pos h0]
  · by_cases h1 : (words (collapseWs
        (((trimL s.data).map lowerChar).filter (fun c => !isPunct c)))).isEmpty = true
    · left
      simp only [norm_street]
      rw [if_neg h0, if_pos h1]
    · right
      have htoksne : words (collapseWs
          (((trimL s.data).map lowerChar).filter (fun c => !isPunct c))) ≠ [] :=
        fun h => h1 (by rw [h]; rfl)
      have htg := norm_street_tokens_good s
      rcases hacr : classifyAux (words (collapseWs
          (((trimL s.data).map lowerChar).filter (fun c => !isPunct c))))
          none none [] with ⟨adjR, tyR, coreR⟩
      obtain ⟨hg1, hg2, hg3, hg4⟩ := classifyAux_general _ none none []
      rw [hacr] at hg1 hg2 hg3 hg4
      have hadjR : ∀ a, adjR = some a →
          GoodTok a ∧ adjLookup a = some a ∧ stLookup (rstripDot a) = none := by
        intro a ha
        rcases hg1 a ha with h | ⟨p, hp, hpa⟩
        · simp at h
        · subst hpa
          exact adjPairs_values_canonical p hp
      have hcoreR : ∀ t ∈ coreR,
          GoodTok t ∧ stLookup (rstripDot t) = none ∧ adjLookup t = none := by
        intro t ht
        rcases hg3 t ht with h | ⟨hmem, hst, hadj⟩
        · simp at h
        · exact ⟨htg t hmem, hst, hadj⟩
      have hstate : adjR.isSome ∨ tyR.isSome ∨ coreR ≠ [] := by
        have := hg4 (Or.inr (Or.inr (Or.inr htoksne)))
        simpa using this
      rcases htyR : tyR with - | ty2
      · subst htyR
        have hcond : (adjR.isSome || !coreR.isEmpty) = true := by
          rcases hstate with h | h | h
          · simp [h]
          · simp at h
          · simp [List.isEmpty_eq_false.mpr h]
        have hshape : streetShape adjR coreR "улица".data ≠ [] := by
          simp [streetShape]
        refine ⟨adjR, coreR, "улица".data, hadjR, hcoreR, ulitsa_canonical, ?_⟩
        simp only [norm_street]
        rw [if_neg h0, if_neg h1, hacr]
        dsimp only
        rw [assembleStreet_none adjR coreR hcond]
        rw [if_neg (fun h => hshape (List.isEmpty_iff.mp h))]
      · subst htyR
        have hshape : streetShape adjR coreR ty2 ≠ [] := by
          simp [streetShape]
        refine ⟨adjR, coreR, ty2, hadjR, hcoreR, ?_, ?_⟩
        · rcases hg2 ty2 rfl with h | ⟨p, hp, hpa⟩
          · simp at h
          · subst hpa
            exact streetTypePairs_values_canonical p hp
        · simp only [norm_street]
          rw [if_neg h0, if_neg h1, hacr]
          dsimp only
          rw [assembleStreet_some]
          rw [if_neg (fun h => hshape (List.isEmpty_iff.mp h))]



/-- Helper: a successful `tryMatch` decomposes the input into the digit
groups and the remainder, all drawn from the input. -/
theorem tryMatch_some {m l d1 d2 r5 : List Char}
    (h : tryMatch m l = some (d1, d2, r5)) :
    d1 = l.takeWhile Char.isDigit ∧
    d2 = ((((l.dropWhile Char.isDigit).dropWhile isWsChar).drop
      m.length).dropWhile isWsChar).takeWhile Char.isDigit ∧
    r5 = ((((l.dropWhile Char.isDigit).dropWhile isWsChar).drop
      m.length).dropWhile isWsChar).dropWhile Char.isDigit := by
  unfold tryMatch at h
  by_cases h1 : (l.takeWhile Char.isDigit).isEmpty = true
  · rw [if_pos h1] at h
    exact absurd h (by simp)
  · rw [if_neg h1] at h
    by_cases h2 : ((((l.dropWhile Char.isDigit).dropWhile isWsChar).take
        m.length).map lowerChar == m) = true
    · rw [if_pos h2] at h
      by_cases h3 : (((((l.dropWhile Char.isDigit).dropWhile isWsChar).drop
          m.length).dropWhile isWsChar).takeWhile Char.isDigit).isEmpty = true
      · rw [if_pos h3] at h
        exact absurd h (by simp)
      · rw [if_neg h3] at h
        simp only [Option.some.injEq, Prod.mk.injEq] at h
        exact ⟨h.1.symm, h.2.1.symm, h.2.2.symm⟩
    · rw [if_neg h2] at h
      exact absurd h (by simp)

/-- Helper: the remainder of a successful `tryMatch` is drawn from the
input. -/
theorem tryMatch_sub {m l d1 d2 r5 : List Char}
    (h : tryMatch m l = some (d1, d2, r5)) :
    (∀ c ∈ d1, c ∈ l) ∧ (∀ c ∈ d2, c ∈ l) ∧ (∀ c ∈ r5, c ∈ l) := by
  obtain ⟨e1, e2, e3⟩ := tryMatch_some h
  subst e1 e2 e3
  have hsub : ((((l.dropWhile Char.isDigit).dropWhile isWsChar).drop
      m.length).dropWhile isWsChar).Sublist l :=
    ((List.dropWhile_sublist _).trans
      ((List.drop_sublist _ _).trans
        ((List.dropWhile_sublist _).trans (List.dropWhile_sublist _))))
  refine ⟨fun c hc => (List.takeWhile_sublist _).subset hc, ?_, ?_⟩
  · exact fun c hc =>
      hsub.subset ((List.takeWhile_sublist _).subset hc)
  · exact fun c hc =>
      hsub.subset ((List.dropWhile_sublist _).subset hc)

/-- Helper: characters of a marker rewrite come from the input or the
replacement text. -/
theorem subNMNF_chars (m mid : List Char) : ∀ (fuel : ℕ) (l : List Char),
    ∀ c ∈ subNMNF m mid fuel l, c ∈ l ∨ c ∈ mid := by
  intro fuel
  induction fuel with
  | zero =>
    intro l c hc
    cases l <;> exact Or.inl hc
  | succ f ih =>
    intro l c hc
    cases l with
    | nil => simp [subNMNF] at hc
    | cons x rest =>
      simp only [subNMNF] at hc
      rcases htm : tryMatch m (x :: rest) with - | ⟨⟨d1, d2, r5⟩⟩
      · rw [htm] at hc
        rcases List.mem_cons.mp hc with hc | hc
        · exact Or.inl (by simp [hc])
        · rcases ih rest c hc with hc2 | hc2
          · exact Or.inl (by simp [hc2])
          · exact Or.inr hc2
      · rw [htm] at hc
        obtain ⟨hd1, hd2, hr5⟩ := tryMatch_sub htm
        rcases List.mem_append.mp hc with hc | hc
        · rcases List.mem_append.mp hc with hc | hc
          · rcases List.mem_append.mp hc with hc | hc
            · exact Or.inl (hd1 c hc)
            · exact Or.inr hc
          · exact Or.inl (hd2 c hc)
        · rcases ih r5 c hc with hc2 | hc2
          · exact Or.inl (hr5 c hc2)
          · exact Or.inr hc2

/-- Helper: characters of `subNMN` come from the input or the replacement
text. -/
theorem subNMN_chars (m mid l : List Char) :
    ∀ c ∈ subNMN m mid l, c ∈ l ∨ c ∈ mid :=
  subNMNF_chars m mid (l.length + 1) l

/-- Helper: `cyrLower` only produces a dot from a dot. -/
theorem cyrLower_ne_dot {c : Char} (h : cyrLower c = '.') : c = '.' := by
  rcases cyrLower_cases c with h2 | ⟨p, hp, h2⟩
  · rw [← h2]
    exact h
  · rw [h2] at h
    have hall : ∀ q ∈ cyrPairs, q.2 ≠ '.' := by decide
    exact absurd h (hall p hp)

/-- Helper: rebuilding a string from its characters is the identity. -/
theorem string_mk_data (s : String) : String.mk s.data = s := rfl


/-- Helper: a marker rewrite with a dot-free replacement preserves
dot-freeness. -/
theorem subNMN_no_dot {m mid l : List Char} (hl : ∀ c ∈ l, c ≠ '.')
    (hm : ∀ c ∈ mid, c ≠ '.') : ∀ c ∈ subNMN m mid l, c ≠ '.' :=
  fun c hc => (subNMN_chars m mid l c hc).elim (hl c) (hm c)

/-- Helper: on nonempty input, `norm_number` is lowering and collapsing of
the rewrite core. -/
theorem norm_number_eq (s : String) (h0 : ¬s.data.isEmpty = true) :
    norm_number s = String.mk (collapseWs ((normNumberCore s).map cyrLower)) := by
  simp only [norm_number, normNumberCore]
  rw [if_neg h0]

/-- Helper: the rewrite core contains no dots. -/
theorem normNumberCore_no_dot (s : String) :
    ∀ c ∈ normNumberCore s, c ≠ '.' := by
  unfold normNumberCore
  have hk : ∀ c ∈ " к".data, c ≠ '.' := by decide
  have hsd : ∀ c ∈ " с".data, c ≠ '.' := by decide
  have h1 : ∀ c ∈ (trimL s.data).filter (fun c => !(c == '.')), c ≠ '.' := by
    intro c hc
    have hp := List.of_mem_filter hc
    simp only [Bool.not_eq_true', beq_eq_false_iff_ne, ne_eq] at hp
    exact hp
  exact subNMN_no_dot (subNMN_no_dot (subNMN_no_dot (subNMN_no_dot
    (subNMN_no_dot (subNMN_no_dot (subNMN_no_dot h1 hk) hk) hk) hsd) hsd)
    hsd) hk

/-- Helper: `norm_number` fixes any string already in normal form with
respect to trimming, dot removal, the seven rewrite passes, Cyrillic
lowering and whitespace collapsing. -/
theorem norm_number_fixes (t : String)
    (htrim : trimL t.data = t.data)
    (hfilter : t.data.filter (fun c => !(c == '.')) = t.data)
    (hfix : numberRewritesFixed t.data)
    (hmap : t.data.map cyrLower = t.data)
    (hcollapse : collapseWs t.data = t.data) :
    norm_number t = t := by
  by_cases h0 : t.data.isEmpty = true
  · rw [string_data_empty (List.isEmpty_iff.mp h0)]
    rfl
  · obtain ⟨f1, f2, f3, f4, f5, f6, f7⟩ := hfix
    simp only [norm_number]
    rw [if_neg h0, htrim, hfilter, f1, f2, f3, f4, f5, f6, f7, hmap,
      hcollapse]

/-- Helper: `norm_number` is idempotent whenever its output is fixed by
the seven rewrite passes. -/
theorem norm_number_cond_idem (s : String)
    (hfix : numberRewritesFixed (norm_number s).data) :
    norm_number (norm_number s) = norm_number s := by
  by_cases h0 : s.data.isEmpty = true
  · have hs2 : norm_number s = "" := by
      unfold norm_number
      rw [if_pos h0]
    rw [hs2]
    rfl
  · have hval := norm_number_eq s h0
    have hZ : (norm_number s).data =
        joinSp (words ((normNumberCore s).map cyrLower)) := by
      rw [hval]
      rfl
    have hgood := words_good ((normNumberCore s).map cyrLower)
    have hchar : ∀ c ∈ (norm_number s).data,
        c = ' ' ∨ ∃ c2 ∈ normNumberCore s, c = cyrLower c2 := by
      intro c hc
      rw [hZ] at hc
      rcases mem_joinSp _ c hc with h | ⟨w, hw, hcw⟩
      · exact Or.inl h
      · have hmem : c ∈ (normNumberCore s).map cyrLower :=
          words_subset _ w hw c hcw
        rcases List.mem_map.mp hmem with ⟨c2, hc2m, hc2⟩
        exact Or.inr ⟨c2, hc2m, hc2.symm⟩
    apply norm_number_fixes
    · rw [hZ]
      exact trimL_joinSp _ hgood
    · apply List.filter_eq_self.mpr
      intro c hc
      rcases hchar c hc with h | ⟨c2, hc2m, h⟩
      · rw [h]
        decide
      · have hne : c ≠ '.' := by
          intro hdot
          rw [h] at hdot
          exact normNumberCore_no_dot s c2 hc2m (cyrLower_ne_dot hdot)
        simp [hne]
    · exact hfix
    · apply map_id_of_fixed
      intro c hc
      rcases hchar c hc with h | ⟨c2, _, h⟩
      · rw [h]
        decide
      · rw [h]
        exact cyrLower_idem c2
    · rw [hZ]
      unfold collapseWs
      rw [words_joinSp _ hgood]

/-- C7: `norm_street` is idempotent on every input string.  `norm_number`
is idempotent on every input whose normalized form is left unchanged by
all seven marker/slash rewrite passes (the general statement fails: see
the counterexample). -/
theorem norm_idempotence :
    (∀ s : String, norm_street (norm_street s) = norm_street s) ∧
    (∀ s : String, numberRewritesFixed (norm_number s).data →
      norm_number (norm_number s) = norm_number s) := by
  constructor
  · intro s
    rcases norm_street_output s with h | ⟨adj, core, ty, hadj, hcore, hty, hout⟩
    · rw [h]
      decide
    · rw [hout]
      exact norm_street_fixpoint adj core ty hadj hcore hty
  · exact fun s hfix => norm_number_cond_idem s hfix

/-- Witness: idempotence on the concrete street `Тверская ул.` and the
concrete number `12к1`, whose normal form `12 к1` is fixed by all
passes. -/
theorem norm_idempotence_witness :
    norm_street (norm_street "Тверская ул.") = norm_street "Тверская ул." ∧
    numberRewritesFixed (norm_number "12к1").data ∧
    norm_number (norm_number "12к1") = norm_number "12к1" :=
  ⟨norm_idempotence.1 "Тверская ул.",
   by decide,
   norm_idempotence.2 "12к1" (by decide)⟩

end Geocoder
